import Mathlib

/-!
# Verification of the MatrixCalculator reduction engine

A shallow embedding, over exact rationals, of the row-reduction engine
(`RREF.h`), the linear-system solver (`SolvingEquation.h`) and the
eigen-decomposition routine (`Matrix::eigen`), together with the matrix /
vector primitives they use (`matrix.h`, `vector.h`).

A matrix is embedded as a total function `ℕ → ℕ → ℚ` together with explicit
row/column counts passed to each operation; all index accesses performed by
the embedded algorithms are in bounds, so the bounds-checked `Matrix::at`
is embedded as plain function application.  The numeric literals `1e-9`
appearing in the sources become the exact rational `1/10^9`.
-/

namespace MatrixCalculator

/-- A dense matrix: entry at row `i`, column `j`. -/
abbrev Mat : Type := ℕ → ℕ → ℚ

/-- The hard-coded `1e-9` threshold used by `Matrix::scaleRow` and
`Matrix::addScaledRow` (matrix.h lines 141, 154) and the default `eps`
argument of the reduction routines. -/
def eps0 : ℚ := 1 / 1000000000

/-- Write value `v` at position `(r, c)` (an assignment `mat.at(r,c) = v`). -/
def setEntry (m : Mat) (r c : ℕ) (v : ℚ) : Mat :=
  fun i j => if i = r ∧ j = c then v else m i j

/-- `Matrix::exchangeRows` (matrix.h lines 131-135): swap rows `r1` and `r2`. -/
def exchangeRows (m : Mat) (r1 r2 : ℕ) : Mat :=
  fun i j => if i = r1 then m r2 j else if i = r2 then m r1 j else m i j

/-- The multiplication part of `Matrix::scaleRow` (matrix.h lines 144-146). -/
def scaleRowF (m : Mat) (r : ℕ) (s : ℚ) : Mat :=
  fun i j => if i = r then m i j * s else m i j

/-- `Matrix::scaleRow` (matrix.h lines 137-147): throws
`"Scaling factor too small"` when `|scalar| < 1e-9`, otherwise multiplies
row `r` by `scalar`.  (The row index is in bounds at every call site.) -/
def scaleRow (m : Mat) (r : ℕ) (s : ℚ) : Except String Mat :=
  if |s| < eps0 then .error "Scaling factor too small"
  else .ok (scaleRowF m r s)

/-- `Matrix::addScaledRow` (matrix.h lines 149-160): silently does nothing
when `|scalar| < 1e-9`, otherwise `row[target] += row[source] * scalar`.
(Indices are in bounds at every call site.) -/
def addScaledRow (m : Mat) (targetRow sourceRow : ℕ) (s : ℚ) : Mat :=
  if |s| < eps0 then m
  else fun i j => if i = targetRow then m i j + m sourceRow j * s else m i j

/-- `Matrix::transpose` (matrix.h lines 163-169). -/
def transposeM (m : Mat) : Mat := fun i j => m j i

/-- `Matrix::augment` (matrix.h lines 305-313): horizontal concatenation;
`colsA` is the column count of the left block. -/
def augmentM (a : Mat) (colsA : ℕ) (b : Mat) : Mat :=
  fun i j => if j < colsA then a i j else b i (j - colsA)

/-- The state carried by one `RREF<T>` instance across `toREF`
(RREF.h lines 11-17): working matrix, current pivot row, rank, and the
parallel pivot bookkeeping sequences. -/
structure RefState where
  mat : Mat
  pivotRow : ℕ
  rank : ℕ
  pivotCols : List ℕ
  pivotRows : List ℕ

/-- The pivot search of `RREF::toREF` (RREF.h lines 32-40): scan the rows
at or below `pivotRow` in column `col`, keeping the first row attaining the
maximal absolute value; returns `(max_index, max_val)`. -/
def pivotSearch (m : Mat) (col pivotRow rows : ℕ) : ℕ × ℚ :=
  (List.range' (pivotRow + 1) (rows - (pivotRow + 1))).foldl
    (fun acc row => if |m row col| > acc.2 then (row, |m row col|) else acc)
    (pivotRow, |m pivotRow col|)

/-- The body of the elimination loop of `RREF::toREF` (RREF.h lines 52-60)
for one row strictly below the pivot: entries smaller than `eps` are set to
zero directly; otherwise an `addScaledRow` with factor
`-mat(row,col)/mat(pivotRow,col)` runs and the entry is forced to zero. -/
def elimRowBelow (eps : ℚ) (pivotRow col : ℕ) (m : Mat) (row : ℕ) : Mat :=
  if |m row col| < eps then setEntry m row col 0
  else
    setEntry (addScaledRow m row pivotRow (-(m row col) / m pivotRow col)) row col 0

/-- The elimination loop of `RREF::toREF` (RREF.h lines 52-60) over all
rows strictly below the pivot. -/
def eliminateBelow (rows : ℕ) (eps : ℚ) (m : Mat) (pivotRow col : ℕ) : Mat :=
  (List.range' (pivotRow + 1) (rows - (pivotRow + 1))).foldl
    (elimRowBelow eps pivotRow col) m

/-- One iteration of the column loop of `RREF::toREF` (RREF.h lines 30-62),
including the `pivotRow < rows` part of the loop condition (when it fails
the loop body never runs again, which is equivalent to skipping the
remaining columns since `pivotRow` never decreases). -/
def refStep (rows : ℕ) (eps : ℚ) (s : RefState) (col : ℕ) : RefState :=
  if s.pivotRow < rows then
    let p := pivotSearch s.mat col s.pivotRow rows
    if p.2 < eps then s
    else
      let m1 := if p.1 ≠ s.pivotRow then exchangeRows s.mat p.1 s.pivotRow else s.mat
      { mat := eliminateBelow rows eps m1 s.pivotRow col
        pivotRow := s.pivotRow + 1
        rank := s.rank + 1
        pivotCols := s.pivotCols ++ [col]
        pivotRows := s.pivotRows ++ [s.pivotRow] }
  else s

/-- `RREF::toREF` (RREF.h lines 22-64): process the columns left to right
starting from pivot row 0 with cleared bookkeeping. -/
def toREF (rows cols : ℕ) (eps : ℚ) (m : Mat) : RefState :=
  (List.range cols).foldl (refStep rows eps) ⟨m, 0, 0, [], []⟩

/-- The forward normalization pass of `RREF::toRREF` (RREF.h lines 71-76):
scale each pivot row so the pivot entry becomes 1; `scaleRow` may throw. -/
def scalePass (prs pcs : List ℕ) (rank : ℕ) (m : Mat) : Except String Mat :=
  (List.range rank).foldlM
    (fun acc i =>
      scaleRow acc (prs.getD i 0) (1 / acc (prs.getD i 0) (pcs.getD i 0))) m

/-- The body of the inner loop of the backward pass of `RREF::toRREF`
(RREF.h lines 81-89) for one row strictly above the pivot at `(row, col)`. -/
def backElimRow (eps : ℚ) (row col : ℕ) (m : Mat) (upperRow : ℕ) : Mat :=
  if |m upperRow col| < eps then setEntry m upperRow col 0
  else
    setEntry (addScaledRow m upperRow row (-(m upperRow col))) upperRow col 0

/-- The backward elimination for one pivot of `RREF::toRREF`
(RREF.h lines 78-90), running over the rows above it from `row - 1` down
to `0`. -/
def backStep (eps : ℚ) (row col : ℕ) (m : Mat) : Mat :=
  (List.range row).reverse.foldl (backElimRow eps row col) m

/-- The backward pass of `RREF::toRREF` (RREF.h lines 78-90): pivots are
processed from the last one down to the first one. -/
def backPass (eps : ℚ) (prs pcs : List ℕ) (rank : ℕ) (m : Mat) : Mat :=
  (List.range rank).reverse.foldl
    (fun acc i => backStep eps (prs.getD i 0) (pcs.getD i 0) acc) m

/-- The final cleanup pass of `RREF::toRREF` (RREF.h lines 92-96): snap
every entry of magnitude below `eps` to exact zero.  (The per-entry loop
is embedded pointwise.) -/
def cleanup (eps : ℚ) (m : Mat) : Mat :=
  fun i j => if |m i j| < eps then 0 else m i j

/-- The data read off a reduced `RREF<T>` instance by its callers:
`getMatrix`, `getRank`, `getPivotCols`, `getPivotRows`. -/
structure RrefResult where
  mat : Mat
  rank : ℕ
  pivotCols : List ℕ
  pivotRows : List ℕ

/-- `RREF::toRREF` (RREF.h lines 66-98) on a fresh `RREF<T>` instance
(every caller in the repository constructs the instance and immediately
reduces, so `toREF` always runs first): forward scaling, backward
elimination, final cleanup. -/
def toRREF (rows cols : ℕ) (eps : ℚ) (m : Mat) : Except String RrefResult :=
  let st := toREF rows cols eps m
  (scalePass st.pivotRows st.pivotCols st.rank st.mat).map fun m1 =>
    ⟨cleanup eps (backPass eps st.pivotRows st.pivotCols st.rank m1),
     st.rank, st.pivotCols, st.pivotRows⟩

/-- Materialize a length-`n` vector built by index assignments
(`std::vector<T> v(n, …)` plus writes) into a `List ℚ`. -/
def vecOf (n : ℕ) (f : ℕ → ℚ) : List ℚ :=
  (List.range n).map f

/-- The kernel-vector construction of `RREF::getKernel`
(RREF.h lines 133-141) for one free column: start from the zero vector,
set entry `freeCol` to 1, then for each pivot `i` set entry `pivotCols[i]`
to `-mat(pivotRows[i], freeCol)`. -/
def kernelVec (R : RrefResult) (n freeCol : ℕ) : List ℚ :=
  vecOf n <|
    (List.range R.rank).foldl
      (fun v i => fun j => if j = R.pivotCols.getD i 0
                           then -(R.mat (R.pivotRows.getD i 0) freeCol) else v j)
      (fun j => if j = freeCol then 1 else 0)

/-- The free columns of a reduced matrix (`RREF::getKernel`,
RREF.h lines 124-132): the columns not appearing in `pivotCols`, in
increasing order. -/
def freeColumns (cols : ℕ) (pcs : List ℕ) : List ℕ :=
  (List.range cols).filter (fun j => j ∉ pcs)

/-- `RREF::getKernel` (RREF.h lines 119-144) on a fresh instance: reduce
to RREF, then build one kernel vector per free column, in free-column
order. -/
def getKernel (rows cols : ℕ) (eps : ℚ) (m : Mat) :
    Except String (List (List ℚ)) :=
  (toRREF rows cols eps m).map fun R =>
    (freeColumns cols R.pivotCols).map (kernelVec R cols)

/-- `Matrix::rank` (RREF.h lines 158-163): reduce a copy to RREF with the
default epsilon and return the recorded rank. -/
def rankM (rows cols : ℕ) (m : Mat) : Except String ℕ :=
  (toRREF rows cols eps0 m).map (·.rank)

/-! ## The linear-system solver (`SolvingEquation.h`) -/

/-- `SolvingEquation::SolutionType` (SolvingEquation.h lines 12-16). -/
inductive SolutionType where
  | NoSolution
  | UniqueSolution
  | InfiniteSolutions
deriving DecidableEq, Repr

/-- The inconsistency scan of `SolvingEquation::solve`
(SolvingEquation.h lines 44-51): walk `pivotCols` and stop at the first
column equal to `n` (the augmented column). -/
def augmentedPivotScan (n : ℕ) : List ℕ → Bool
  | [] => false
  | c :: rest => if c = n then true else augmentedPivotScan n rest

/-- `SolvingEquation::solve` (SolvingEquation.h lines 39-57), given the
number of unknowns `n = cols(A)` and the recorded pivot columns. -/
def solveClassify (n : ℕ) (pcs : List ℕ) : SolutionType :=
  if augmentedPivotScan n pcs then .NoSolution
  else if pcs.length = n then .UniqueSolution
  else .InfiniteSolutions

/-- The `SolvingEquation` constructor (SolvingEquation.h lines 26-35):
`A.augment(b)` (which throws when row counts differ), the dimension check
on `b`, `toRREF` on the augmented matrix, then immediate classification.
Returns the reduced augmented matrix data and the solution type. -/
def solveSystem (rowsA colsA : ℕ) (A : Mat) (bRows bCols : ℕ) (b : Mat) :
    Except String (RrefResult × SolutionType) :=
  if bRows ≠ rowsA then .error "Row count must match for augment"
  else if bCols ≠ 1 then .error "Invalid dimensions"
  else
    (toRREF rowsA (colsA + 1) eps0 (augmentM A colsA b)).map fun R =>
      (R, solveClassify (colsA + 1 - 1) R.pivotCols)

/-- `SolvingEquation::computeSolution` (SolvingEquation.h lines 59-101):
throws for a `NoSolution` system (re-running `solve` on the same reduced
data cannot change the classification); otherwise builds the particular
solution and, in the `InfiniteSolutions` case, one nullspace basis vector
per free column.  `n = cols(A)` is the number of unknowns; the reads at
matrix row `i` (not `pivotRows[i]`) mirror lines 73, 86 and 96 of the
source. -/
def computeSolution (n : ℕ) (R : RrefResult) (t : SolutionType) :
    Except String (List ℚ × List (List ℚ)) :=
  if t = .NoSolution then .error "No solution exists"
  else if t = .UniqueSolution then
    .ok ((List.range n).map (fun i => R.mat i n), [])
  else
    let part := vecOf n <|
      (List.range R.pivotCols.length).foldl
        (fun v i => fun j => if j = R.pivotCols.getD i 0 then R.mat i n else v j)
        (fun _ => 0)
    let ns := (freeColumns n R.pivotCols).map fun freeCol =>
      vecOf n <|
        (List.range R.pivotCols.length).foldl
          (fun v i => fun j => if j = R.pivotCols.getD i 0
                               then -(R.mat i freeCol) else v j)
          (fun j => if j = freeCol then 1 else 0)
    .ok (part, ns)

/-- Construct a solver from `(A, b)` and immediately request the computed
solution, the way `main.cpp` drives `SolvingEquation`. -/
def solveAndCompute (rowsA colsA : ℕ) (A : Mat) (bRows bCols : ℕ) (b : Mat) :
    Except String (List ℚ × List (List ℚ)) :=
  solveSystem rowsA colsA A bRows bCols b >>= fun (R, t) =>
    computeSolution colsA R t

/-! ## Row–vector products used to state solution properties -/

/-- The `i`-th entry of `m · x` for a matrix with `n` columns and a vector
given as a function. -/
def rowDotF (m : Mat) (i : ℕ) (x : ℕ → ℚ) (n : ℕ) : ℚ :=
  ∑ j ∈ Finset.range n, m i j * x j

/-- The `i`-th entry of `m · v` for a vector given as a list. -/
def rowDotL (m : Mat) (i : ℕ) (v : List ℚ) (n : ℕ) : ℚ :=
  rowDotF m i (fun j => v.getD j 0) n

/-! ## The eigen-decomposition routine (`Matrix::eigen`, RREF.h 166-195)

The QR factorization primitive (`Matrix::qr_decomposition`) and the vector
normalization primitive (`Vector::normalized`) involve real square roots,
so they cannot be represented exactly over the scalars; the spec (§6)
declares both to be external collaborators with a fixed contract, and the
embedding takes them as parameters: `qr` produces the two factors, and
`normalize` returns `none` exactly when `Vector::normalized` would throw. -/

/-- `Matrix::operator*` (matrix.h lines 191-200) for square matrices of
order `n`. -/
def matMul (n : ℕ) (a b : Mat) : Mat :=
  fun i j => ∑ k ∈ Finset.range n, a i k * b k j

/-- `Matrix::identity(n) * lam - …`: the shifted matrix
`A - lam * identity(rows)` built at RREF.h lines 179-180. -/
def shiftedMat (A : Mat) (lam : ℚ) : Mat :=
  fun i j => A i j - (if i = j then lam else 0)

/-- One QR iteration step (RREF.h lines 171-172): factor `A = Q·R` and
recombine as `R·Q`. -/
def qrStep (n : ℕ) (qr : Mat → Mat × Mat) (A : Mat) : Mat :=
  matMul n (qr A).2 (qr A).1

/-- `Matrix::EigenDecomposition` (matrix.h lines 24-27). -/
structure EigenDecomposition where
  eigenvalues : List ℚ
  eigenvectors : List (List ℚ)
deriving DecidableEq, Repr

/-- The per-eigenvalue eigenvector extraction of `Matrix::eigen`
(RREF.h lines 178-193), accumulated left to right over the eigenvalues:
compute the kernel of `A - lam·I` on the original input `A`; push each
kernel vector normalized, falling back to the vector itself when
normalization fails; push one zero vector when the kernel is empty. -/
def eigenVecLoop (n : ℕ) (normalize : List ℚ → Option (List ℚ)) (A : Mat)
    (lams : List ℚ) : Except String (List (List ℚ)) :=
  lams.foldlM
    (fun acc lam =>
      (getKernel n n eps0 (shiftedMat A lam)).map fun basis =>
        if basis.isEmpty then acc ++ [List.replicate n 0]
        else acc ++ basis.map (fun v => (normalize v).getD v))
    []

/-- `Matrix::eigen` (RREF.h lines 166-195; declaration with default
`max_iter = 1000` at matrix.h line 413): reject non-square input, run
exactly `max_iter` QR iteration steps, read the eigenvalues off the
diagonal of the final iterate, then extract eigenvectors. -/
def eigen (rowsA colsA : ℕ) (qr : Mat → Mat × Mat)
    (normalize : List ℚ → Option (List ℚ)) (A : Mat) (max_iter : ℕ) :
    Except String EigenDecomposition :=
  if rowsA ≠ colsA then .error "Eigen decomposition only for square matrices"
  else
    let Afinal := (List.range max_iter).foldl (fun M _ => qrStep rowsA qr M) A
    let eigenvalues := (List.range rowsA).map (fun i => Afinal i i)
    (eigenVecLoop rowsA normalize A eigenvalues).map fun vecs =>
      ⟨eigenvalues, vecs⟩

/-! ## Concrete matrices for scenario and counterexample theorems -/

/-- Build a matrix from a row-major list of rows (entries outside the
given data read as `0`). -/
def matOfLists (l : List (List ℚ)) : Mat :=
  fun i j => (l.getD i []).getD j 0

/-! ## List utilities -/

instance (α : Type) [DecidableEq α] : DecidableEq (Except String α) := fun a b => by
  cases a <;> cases b
  case error.error e1 e2 => exact decidable_of_iff (e1 = e2) (by simp)
  case ok.ok v1 v2 => exact decidable_of_iff (v1 = v2) (by simp)
  all_goals exact isFalse (by simp)

lemma range_append_one (n : ℕ) : List.range (n + 1) = List.range n ++ [n] := by
  simpa using List.range_succ (n := n)

lemma range_reverse_cons (n : ℕ) :
    (List.range (n + 1)).reverse = n :: (List.range n).reverse := by
  rw [range_append_one]; simp

lemma getD_append_left {l : List ℕ} {x i : ℕ} (h : i < l.length) :
    (l ++ [x]).getD i 0 = l.getD i 0 := by
  simp [List.getD_eq_getElem?_getD, List.getElem?_append_left h]

lemma getD_append_last (l : List ℕ) (x : ℕ) : (l ++ [x]).getD l.length 0 = x := by
  simp [List.getD_eq_getElem?_getD]

lemma getD_range {n i : ℕ} (h : i < n) : (List.range n).getD i 0 = i := by
  simp [List.getD_eq_getElem?_getD, List.getElem?_range h]

lemma mem_iff_getD {l : List ℕ} {j : ℕ} :
    j ∈ l ↔ ∃ i, i < l.length ∧ l.getD i 0 = j := by
  constructor
  · intro h
    obtain ⟨i, hi, he⟩ := List.mem_iff_getElem.mp h
    exact ⟨i, hi, by simp [List.getD_eq_getElem?_getD, List.getElem?_eq_getElem hi, he]⟩
  · rintro ⟨i, hi, rfl⟩
    simp only [List.getD_eq_getElem?_getD, List.getElem?_eq_getElem hi, Option.getD_some]
    exact List.getElem_mem hi

lemma getD_vecOf (n : ℕ) (g : ℕ → ℚ) (j : ℕ) :
    (vecOf n g).getD j 0 = if j < n then g j else 0 := by
  unfold vecOf
  split
  · next h => simp [List.getD_eq_getElem?_getD, List.getElem?_map, List.getElem?_range h]
  · next h =>
    have h2 : ((List.range n).map g).length ≤ j := by simpa using Nat.le_of_not_lt h
    simp [List.getD_eq_getElem?_getD, List.getElem?_eq_none h2]

lemma length_vecOf (n : ℕ) (g : ℕ → ℚ) : (vecOf n g).length = n := by
  simp [vecOf]

lemma getD_map_range (n : ℕ) (g : ℕ → ℚ) (j : ℕ) :
    ((List.range n).map g).getD j 0 = if j < n then g j else 0 :=
  getD_vecOf n g j

/-! ## Pointwise behaviour of the row operations -/

lemma setEntry_same (m : Mat) (r c : ℕ) (v : ℚ) : setEntry m r c v r c = v := by
  simp [setEntry]

lemma setEntry_other {m : Mat} {r c : ℕ} {v : ℚ} {i j : ℕ} (h : ¬(i = r ∧ j = c)) :
    setEntry m r c v i j = m i j := by
  simp only [setEntry, if_neg h]

lemma exchangeRows_fst (m : Mat) (r1 r2 j : ℕ) : exchangeRows m r1 r2 r1 j = m r2 j := by
  simp [exchangeRows]

lemma exchangeRows_snd (m : Mat) (r1 r2 j : ℕ) : exchangeRows m r1 r2 r2 j = m r1 j := by
  unfold exchangeRows
  by_cases h : r2 = r1 <;> simp [h]

lemma exchangeRows_other {m : Mat} {r1 r2 i : ℕ} (h1 : i ≠ r1) (h2 : i ≠ r2) (j : ℕ) :
    exchangeRows m r1 r2 i j = m i j := by
  simp [exchangeRows, h1, h2]

lemma exchangeRows_self (m : Mat) (r : ℕ) : exchangeRows m r r = m := by
  funext i j
  unfold exchangeRows
  by_cases h : i = r <;> simp [h]

lemma addScaledRow_other {m : Mat} {t s : ℕ} {c : ℚ} {i : ℕ} (h : i ≠ t) (j : ℕ) :
    addScaledRow m t s c i j = m i j := by
  unfold addScaledRow
  split
  · rfl
  · simp [h]

lemma addScaledRow_target (m : Mat) (t s : ℕ) (c : ℚ) (j : ℕ) :
    addScaledRow m t s c t j = if |c| < eps0 then m t j else m t j + m s j * c := by
  unfold addScaledRow
  split <;> simp

lemma scaleRowF_target (m : Mat) (r : ℕ) (s : ℚ) (j : ℕ) : scaleRowF m r s r j = m r j * s := by
  simp [scaleRowF]

lemma scaleRowF_other {m : Mat} {r : ℕ} {s : ℚ} {i : ℕ} (h : i ≠ r) (j : ℕ) :
    scaleRowF m r s i j = m i j := by
  simp [scaleRowF, h]

lemma scaleRow_ok {m : Mat} {r : ℕ} {s : ℚ} {m2 : Mat} (h : scaleRow m r s = .ok m2) :
    m2 = scaleRowF m r s := by
  unfold scaleRow at h
  split at h
  · cases h
  · cases h; rfl

/-! ## Characterization of the pivot search -/

lemma pivotFold_aux (m : Mat) (col : ℕ) (L : List ℕ) (acc : ℕ × ℚ)
    (hacc : acc.2 = |m acc.1 col|) :
    (L.foldl (fun a row => if |m row col| > a.2 then (row, |m row col|) else a) acc).2 =
      |m (L.foldl (fun a row => if |m row col| > a.2 then (row, |m row col|) else a) acc).1 col| ∧
    ((L.foldl (fun a row => if |m row col| > a.2 then (row, |m row col|) else a) acc).1 = acc.1 ∨
      (L.foldl (fun a row => if |m row col| > a.2 then (row, |m row col|) else a) acc).1 ∈ L) ∧
    acc.2 ≤ (L.foldl (fun a row => if |m row col| > a.2 then (row, |m row col|) else a) acc).2 ∧
    ∀ r ∈ L, |m r col| ≤
      (L.foldl (fun a row => if |m row col| > a.2 then (row, |m row col|) else a) acc).2 := by
  induction L generalizing acc with
  | nil => exact ⟨hacc, Or.inl rfl, le_refl _, by simp⟩
  | cons a L ih =>
    simp only [List.foldl_cons]
    by_cases hgt : |m a col| > acc.2
    · rw [if_pos hgt]
      obtain ⟨h1, h2, h3, h4⟩ := ih (a, |m a col|) rfl
      refine ⟨h1, ?_, le_trans (le_of_lt hgt) h3, ?_⟩
      · rcases h2 with h | h
        · exact Or.inr (by rw [h]; exact List.mem_cons_self a L)
        · exact Or.inr (List.mem_cons_of_mem a h)
      · intro r hr
        rcases List.mem_cons.mp hr with rfl | hr
        · exact h3
        · exact h4 r hr
    · rw [if_neg hgt]
      obtain ⟨h1, h2, h3, h4⟩ := ih acc hacc
      refine ⟨h1, ?_, h3, ?_⟩
      · rcases h2 with h | h
        · exact Or.inl h
        · exact Or.inr (List.mem_cons_of_mem a h)
      · intro r hr
        rcases List.mem_cons.mp hr with rfl | hr
        · exact le_trans (le_of_not_lt hgt) h3
        · exact h4 r hr

lemma pivotSearch_spec (m : Mat) (col pivotRow rows : ℕ) (h : pivotRow < rows) :
    pivotRow ≤ (pivotSearch m col pivotRow rows).1 ∧
    (pivotSearch m col pivotRow rows).1 < rows ∧
    (pivotSearch m col pivotRow rows).2 = |m (pivotSearch m col pivotRow rows).1 col| ∧
    ∀ r, pivotRow ≤ r → r < rows → |m r col| ≤ (pivotSearch m col pivotRow rows).2 := by
  unfold pivotSearch
  have haux := pivotFold_aux m col (List.range' (pivotRow + 1) (rows - (pivotRow + 1)))
    (pivotRow, |m pivotRow col|) rfl
  obtain ⟨h1, h2, h3, h4⟩ := haux
  have hmem : ∀ r, r ∈ List.range' (pivotRow + 1) (rows - (pivotRow + 1)) ↔
      pivotRow + 1 ≤ r ∧ r < rows := by
    intro r
    rw [List.mem_range'_1]
    omega
  refine ⟨?_, ?_, h1, ?_⟩
  · rcases h2 with he | he
    · rw [he]
    · exact le_of_lt ((hmem _).mp he).1
  · rcases h2 with he | he
    · rw [he]; exact h
    · exact ((hmem _).mp he).2
  · intro r hr1 hr2
    rcases eq_or_lt_of_le hr1 with rfl | hr1
    · exact h3
    · exact h4 r ((hmem r).mpr ⟨hr1, hr2⟩)

/-! ## A generic lemma for loops updating pairwise-distinct rows -/

lemma foldl_rowUpdate (G : Mat → ℕ → Mat) (src : ℕ)
    (G_other : ∀ m t i j, i ≠ t → G m t i j = m i j)
    (G_self : ∀ m1 m2 t, (∀ j, m1 t j = m2 t j) → (∀ j, m1 src j = m2 src j) →
      ∀ j, G m1 t t j = G m2 t t j) :
    ∀ (L : List ℕ), L.Nodup → src ∉ L → ∀ (m : Mat) (i j : ℕ),
      (L.foldl G m) i j = if i ∈ L then G m i i j else m i j := by
  intro L
  induction L with
  | nil => intro _ _ m i j; simp
  | cons a L ih =>
    intro hnd hsrc m i j
    have hndL : L.Nodup := (List.nodup_cons.mp hnd).2
    have haL : a ∉ L := (List.nodup_cons.mp hnd).1
    have hsrcL : src ∉ L := fun hc => hsrc (List.mem_cons_of_mem a hc)
    have hsa : src ≠ a := fun hc => hsrc (hc ▸ List.mem_cons_self a L)
    simp only [List.foldl_cons]
    rw [ih hndL hsrcL (G m a) i j]
    by_cases hiL : i ∈ L
    · have hia : i ≠ a := fun hc => haL (hc ▸ hiL)
      rw [if_pos hiL, if_pos (List.mem_cons_of_mem a hiL)]
      exact G_self (G m a) m i (fun j2 => G_other m a i j2 hia)
        (fun j2 => G_other m a src j2 hsa) j
    · rw [if_neg hiL]
      by_cases hia : i = a
      · subst hia
        rw [if_pos (List.mem_cons_self i L)]
      · rw [if_neg (fun hc => (List.mem_cons.mp hc).elim hia hiL)]
        exact G_other m a i j hia

/-! ## Characterization of the forward elimination loop -/

lemma elimRowBelow_other (eps : ℚ) (pr col : ℕ) (m : Mat) (t i j : ℕ) (h : i ≠ t) :
    elimRowBelow eps pr col m t i j = m i j := by
  unfold elimRowBelow
  split
  · exact setEntry_other (fun hc => h hc.1)
  · rw [setEntry_other (fun hc => h hc.1)]
    exact addScaledRow_other h j

lemma elimRowBelow_self (eps : ℚ) (pr col : ℕ) (m1 m2 : Mat) (t : ℕ)
    (ht : ∀ j, m1 t j = m2 t j) (hs : ∀ j, m1 pr j = m2 pr j) (j : ℕ) :
    elimRowBelow eps pr col m1 t t j = elimRowBelow eps pr col m2 t t j := by
  unfold elimRowBelow setEntry addScaledRow
  rw [ht col, hs col]
  by_cases h1 : |m2 t col| < eps
  · simp only [if_pos h1]
    split <;> simp [ht]
  · simp only [if_neg h1]
    by_cases h2 : |(-(m2 t col) / m2 pr col)| < eps0
    · simp only [if_pos h2]
      split <;> simp [ht]
    · simp only [if_neg h2]
      split
      · rfl
      · simp [ht, hs]

lemma elimRowBelow_target (eps : ℚ) (pr col : ℕ) (m : Mat) (t j : ℕ) :
    elimRowBelow eps pr col m t t j =
      if j = col then 0
      else if |m t col| < eps then m t j
      else if |(-(m t col) / m pr col)| < eps0 then m t j
      else m t j + m pr j * (-(m t col) / m pr col) := by
  unfold elimRowBelow
  by_cases h1 : |m t col| < eps
  · rw [if_pos h1]
    by_cases hj : j = col
    · subst hj; rw [setEntry_same, if_pos rfl]
    · rw [setEntry_other (fun hc => hj hc.2), if_neg hj, if_pos h1]
  · rw [if_neg h1]
    by_cases hj : j = col
    · subst hj; rw [setEntry_same, if_pos rfl]
    · rw [setEntry_other (fun hc => hj hc.2), addScaledRow_target, if_neg hj, if_neg h1]

lemma eliminateBelow_spec (rows : ℕ) (eps : ℚ) (m : Mat) (pivotRow col : ℕ)
    (h : pivotRow < rows) (i j : ℕ) :
    eliminateBelow rows eps m pivotRow col i j =
      if pivotRow < i ∧ i < rows then elimRowBelow eps pivotRow col m i i j else m i j := by
  unfold eliminateBelow
  have hmem : ∀ r, r ∈ List.range' (pivotRow + 1) (rows - (pivotRow + 1)) ↔
      pivotRow < r ∧ r < rows := by
    intro r; rw [List.mem_range'_1]; omega
  rw [foldl_rowUpdate (elimRowBelow eps pivotRow col) pivotRow
    (fun m t i j hij => elimRowBelow_other eps pivotRow col m t i j hij)
    (fun m1 m2 t ht hs j => elimRowBelow_self eps pivotRow col m1 m2 t ht hs j)
    _ (List.nodup_range' _ _) (fun hc => by have := (hmem _).mp hc; omega) m i j]
  by_cases hi : pivotRow < i ∧ i < rows
  · rw [if_pos ((hmem i).mpr hi), if_pos hi]
  · rw [if_neg (fun hc => hi ((hmem i).mp hc)), if_neg hi]

/-! ## Characterization of the backward elimination loop -/

lemma backElimRow_other (eps : ℚ) (row col : ℕ) (m : Mat) (t i j : ℕ) (h : i ≠ t) :
    backElimRow eps row col m t i j = m i j := by
  unfold backElimRow
  split
  · exact setEntry_other (fun hc => h hc.1)
  · rw [setEntry_other (fun hc => h hc.1)]
    exact addScaledRow_other h j

lemma backElimRow_self (eps : ℚ) (row col : ℕ) (m1 m2 : Mat) (t : ℕ)
    (ht : ∀ j, m1 t j = m2 t j) (hs : ∀ j, m1 row j = m2 row j) (j : ℕ) :
    backElimRow eps row col m1 t t j = backElimRow eps row col m2 t t j := by
  unfold backElimRow setEntry addScaledRow
  rw [ht col]
  by_cases h1 : |m2 t col| < eps
  · simp only [if_pos h1]
    split <;> simp [ht]
  · simp only [if_neg h1]
    by_cases h2 : |(-(m2 t col))| < eps0
    · simp only [if_pos h2]
      split <;> simp [ht]
    · simp only [if_neg h2]
      split
      · rfl
      · simp [ht, hs]

lemma backElimRow_target (eps : ℚ) (row col : ℕ) (m : Mat) (t j : ℕ) :
    backElimRow eps row col m t t j =
      if j = col then 0
      else if |m t col| < eps then m t j
      else if |(-(m t col))| < eps0 then m t j
      else m t j + m row j * (-(m t col)) := by
  unfold backElimRow
  by_cases h1 : |m t col| < eps
  · rw [if_pos h1]
    by_cases hj : j = col
    · subst hj; rw [setEntry_same, if_pos rfl]
    · rw [setEntry_other (fun hc => hj hc.2), if_neg hj, if_pos h1]
  · rw [if_neg h1]
    by_cases hj : j = col
    · subst hj; rw [setEntry_same, if_pos rfl]
    · rw [setEntry_other (fun hc => hj hc.2), addScaledRow_target, if_neg hj, if_neg h1]

lemma backStep_spec (eps : ℚ) (row col : ℕ) (m : Mat) (u j : ℕ) :
    backStep eps row col m u j =
      if u < row then backElimRow eps row col m u u j else m u j := by
  unfold backStep
  have hmem : ∀ r, r ∈ (List.range row).reverse ↔ r < row := by
    intro r; rw [List.mem_reverse, List.mem_range]
  rw [foldl_rowUpdate (backElimRow eps row col) row
    (fun m t i j hij => backElimRow_other eps row col m t i j hij)
    (fun m1 m2 t ht hs j => backElimRow_self eps row col m1 m2 t ht hs j)
    _ (List.nodup_reverse.mpr (List.nodup_range row))
    (fun hc => by have := (hmem _).mp hc; omega) m u j]
  by_cases hu : u < row
  · rw [if_pos ((hmem u).mpr hu), if_pos hu]
  · rw [if_neg (fun hc => hu ((hmem u).mp hc)), if_neg hu]

/-! ## The `toREF` loop invariant -/

lemma refStep_eq (rows : ℕ) (eps : ℚ) (s : RefState) (col : ℕ) :
    refStep rows eps s col =
      if s.pivotRow < rows then
        if (pivotSearch s.mat col s.pivotRow rows).2 < eps then s
        else
          { mat := eliminateBelow rows eps
              (exchangeRows s.mat (pivotSearch s.mat col s.pivotRow rows).1 s.pivotRow)
              s.pivotRow col
            pivotRow := s.pivotRow + 1
            rank := s.rank + 1
            pivotCols := s.pivotCols ++ [col]
            pivotRows := s.pivotRows ++ [s.pivotRow] }
      else s := by
  simp only [refStep]
  by_cases hg : s.pivotRow < rows
  · rw [if_pos hg, if_pos hg]
    by_cases hsk : (pivotSearch s.mat col s.pivotRow rows).2 < eps
    · rw [if_pos hsk, if_pos hsk]
    · rw [if_neg hsk, if_neg hsk]
      by_cases hne : (pivotSearch s.mat col s.pivotRow rows).1 = s.pivotRow
      · rw [if_neg (by simpa using hne), hne, exchangeRows_self]
      · rw [if_pos hne]
  · rw [if_neg hg, if_neg hg]

/-- The invariant maintained by the column loop of `toREF` after the first
`cc` columns have been processed. -/
structure RefInv (rows : ℕ) (eps : ℚ) (cc : ℕ) (s : RefState) : Prop where
  pivotRow_eq : s.pivotRow = s.rank
  prs_eq : s.pivotRows = List.range s.rank
  pcs_len : s.pivotCols.length = s.rank
  rank_le : s.rank ≤ rows
  pcs_lt : ∀ i, i < s.rank → s.pivotCols.getD i 0 < cc
  pcs_mono : ∀ i j, i < j → j < s.rank → s.pivotCols.getD i 0 < s.pivotCols.getD j 0
  pivot_large : ∀ i, i < s.rank → eps ≤ |s.mat i (s.pivotCols.getD i 0)|
  below_zero : ∀ i, i < s.rank → ∀ row, i < row → row < rows →
    s.mat row (s.pivotCols.getD i 0) = 0

lemma refInv_step {rows : ℕ} {eps : ℚ} {col : ℕ} {s : RefState}
    (hinv : RefInv rows eps col s) :
    RefInv rows eps (col + 1) (refStep rows eps s col) := by
  obtain ⟨h1, h2, h3, h4, h5, h6, h7, h8⟩ := hinv
  rw [refStep_eq]
  by_cases hg : s.pivotRow < rows
  · rw [if_pos hg]
    by_cases hsk : (pivotSearch s.mat col s.pivotRow rows).2 < eps
    · rw [if_pos hsk]
      exact ⟨h1, h2, h3, h4, fun i hi => Nat.lt_succ_of_lt (h5 i hi), h6, h7, h8⟩
    · rw [if_neg hsk]
      obtain ⟨hp1, hp2, hp3, hp4⟩ := pivotSearch_spec s.mat col s.pivotRow rows hg
      set P := pivotSearch s.mat col s.pivotRow rows with hP
      set m1 := exchangeRows s.mat P.1 s.pivotRow with hm1
      -- values of the exchanged matrix
      have hm1_pr : ∀ j, m1 s.pivotRow j = s.mat P.1 j := fun j => exchangeRows_snd _ _ _ _
      have hm1_below : ∀ i, i ≠ P.1 → i ≠ s.pivotRow → ∀ j, m1 i j = s.mat i j :=
        fun i hi1 hi2 j => exchangeRows_other hi1 hi2 j
      have hm1_P1 : ∀ j, m1 P.1 j = s.mat s.pivotRow j := fun j => exchangeRows_fst _ _ _ _
      -- rows > old pivots hold zeros of old pivot columns in m1 as well
      have hm1_zero : ∀ i, i < s.rank → ∀ row, i < row → row < rows →
          m1 row (s.pivotCols.getD i 0) = 0 := by
        intro i hi row hrow hrows
        by_cases hrP : row = P.1
        · subst hrP
          rw [hm1_P1]
          exact h8 i hi s.pivotRow (by omega) hg
        · by_cases hrp : row = s.pivotRow
          · subst hrp
            rw [hm1_pr]
            exact h8 i hi P.1 (by omega) hp2
          · rw [hm1_below row hrP hrp]
            exact h8 i hi row hrow hrows
      -- the new working matrix
      have hmat : ∀ i j, eliminateBelow rows eps m1 s.pivotRow col i j =
          if s.pivotRow < i ∧ i < rows then elimRowBelow eps s.pivotRow col m1 i i j
          else m1 i j := fun i j => eliminateBelow_spec rows eps m1 s.pivotRow col hg i j
      have hkeep : ∀ i, i ≤ s.pivotRow → ∀ j,
          eliminateBelow rows eps m1 s.pivotRow col i j = m1 i j := by
        intro i hi j
        rw [hmat i j, if_neg (by omega)]
      refine ⟨?_, ?_, ?_, ?_, ?_, ?_, ?_, ?_⟩ <;> dsimp only
      · rw [h1]
      · rw [h2, h1]
        exact (range_append_one s.rank).symm
      · simp [h3]
      · omega
      · intro i hi
        rcases Nat.lt_succ_iff_lt_or_eq.mp hi with hi2 | hi2
        · rw [getD_append_left (show i < s.pivotCols.length by omega)]
          have := h5 i hi2
          omega
        · subst hi2
          rw [show s.rank = s.pivotCols.length from h3.symm, getD_append_last]
          omega
      · intro i j hij hj
        rcases Nat.lt_succ_iff_lt_or_eq.mp hj with hj2 | hj2
        · rw [getD_append_left (show i < s.pivotCols.length by omega),
            getD_append_left (show j < s.pivotCols.length by omega)]
          exact h6 i j hij hj2
        · subst hj2
          rw [getD_append_left (show i < s.pivotCols.length by omega),
            show s.rank = s.pivotCols.length from h3.symm, getD_append_last]
          exact h5 i (by omega)
      · intro i hi
        rcases Nat.lt_succ_iff_lt_or_eq.mp hi with hi2 | hi2
        · rw [getD_append_left (show i < s.pivotCols.length by omega),
            hkeep i (by omega), hm1_below i (by omega) (by omega)]
          exact h7 i hi2
        · subst hi2
          rw [show (s.pivotCols ++ [col]).getD s.rank 0 = col by
              rw [← h3, getD_append_last], ← h1, hkeep s.pivotRow (le_refl _), hm1_pr]
          rw [hp3] at hsk
          exact le_of_not_lt hsk
      · intro i hi row hrow hrows
        rcases Nat.lt_succ_iff_lt_or_eq.mp hi with hi2 | hi2
        · -- an old pivot column
          rw [getD_append_left (show i < s.pivotCols.length by omega)]
          have hcol_ne : s.pivotCols.getD i 0 ≠ col := by
            have := h5 i hi2
            omega
          by_cases hcase : s.pivotRow < row ∧ row < rows
          · rw [hmat row _, if_pos hcase, elimRowBelow_target, if_neg hcol_ne]
            have hz1 : m1 row (s.pivotCols.getD i 0) = 0 := hm1_zero i hi2 row hrow hrows
            have hz2 : m1 s.pivotRow (s.pivotCols.getD i 0) = 0 := by
              rw [hm1_pr]
              exact h8 i hi2 P.1 (by omega) hp2
            rw [hz1, hz2]
            simp
          · have hrle : row ≤ s.pivotRow := by omega
            rw [hkeep row hrle]
            exact hm1_zero i hi2 row hrow hrows
        · -- the new pivot column
          subst hi2
          rw [show s.rank = s.pivotCols.length from h3.symm, getD_append_last]
          have hrow2 : s.pivotRow < row := by omega
          rw [hmat row _, if_pos ⟨hrow2, hrows⟩, elimRowBelow_target, if_pos rfl]
  · rw [if_neg hg]
    exact ⟨h1, h2, h3, h4, fun i hi => Nat.lt_succ_of_lt (h5 i hi), h6, h7, h8⟩

lemma toREF_zero (rows : ℕ) (eps : ℚ) (m : Mat) :
    toREF rows 0 eps m = ⟨m, 0, 0, [], []⟩ := rfl

lemma toREF_succ (rows cols : ℕ) (eps : ℚ) (m : Mat) :
    toREF rows (cols + 1) eps m = refStep rows eps (toREF rows cols eps m) cols := by
  unfold toREF
  rw [range_append_one, List.foldl_append]
  rfl

lemma toREF_inv (rows cols : ℕ) (eps : ℚ) (m : Mat) :
    RefInv rows eps cols (toREF rows cols eps m) := by
  induction cols with
  | zero =>
    rw [toREF_zero]
    refine ⟨rfl, rfl, rfl, Nat.zero_le _, ?_, ?_, ?_, ?_⟩ <;> dsimp only
    · intro i hi
      omega
    · intro i j hij hj
      omega
    · intro i hi
      omega
    · intro i hi
      omega
  | succ c ih =>
    rw [toREF_succ]
    exact refInv_step ih

/-! ## Characterization of the forward scaling pass -/

lemma scaleAux (pcs : List ℕ) (rank : ℕ) (m : Mat) :
    ∀ k, k ≤ rank → ∀ m1,
      ((List.range k).foldlM
        (fun acc i => scaleRow acc ((List.range rank).getD i 0)
          (1 / acc ((List.range rank).getD i 0) (pcs.getD i 0))) m) = .ok m1 →
      ∀ i j, m1 i j = if i < k then m i j * (1 / m i (pcs.getD i 0)) else m i j := by
  intro k
  induction k with
  | zero =>
    intro _ m1 h i j
    cases h
    simp
  | succ k ih =>
    intro hk m1 h i j
    rw [range_append_one, List.foldlM_append] at h
    cases hpre : (List.range k).foldlM
        (fun acc i => scaleRow acc ((List.range rank).getD i 0)
          (1 / acc ((List.range rank).getD i 0) (pcs.getD i 0))) m with
    | error e =>
      rw [hpre] at h
      simp [Bind.bind, Except.bind] at h
    | ok mk =>
      rw [hpre] at h
      simp only [Bind.bind, Except.bind] at h
      have hkr : k < rank := by omega
      simp only [List.foldlM_cons, List.foldlM_nil] at h
      rw [getD_range hkr] at h
      have hbind : scaleRow mk k (1 / mk k (pcs.getD k 0)) = .ok m1 := by
        cases hs : scaleRow mk k (1 / mk k (pcs.getD k 0)) with
        | error e => rw [hs] at h; simp [Bind.bind, Except.bind] at h
        | ok mm =>
          rw [hs] at h
          simp only [Bind.bind, Except.bind, pure, Except.pure] at h
          exact h
      have hm1 := scaleRow_ok hbind
      have hmk := ih (by omega) mk hpre
      have hmk_k : ∀ j, mk k j = m k j := fun j => by rw [hmk k j, if_neg (by omega)]
      subst hm1
      by_cases hik : i = k
      · subst hik
        rw [scaleRowF_target, hmk_k j, hmk_k (pcs.getD i 0), if_pos (by omega)]
      · rw [scaleRowF_other hik, hmk i j]
        by_cases hlt : i < k
        · rw [if_pos hlt, if_pos (by omega)]
        · rw [if_neg hlt, if_neg (by omega)]

lemma scalePass_ok_char (pcs : List ℕ) (rank : ℕ) (m m1 : Mat)
    (h : scalePass (List.range rank) pcs rank m = .ok m1) :
    ∀ i j, m1 i j = if i < rank then m i j * (1 / m i (pcs.getD i 0)) else m i j :=
  scaleAux pcs rank m rank (le_refl rank) m1 h

/-! ## The backward-pass invariant -/

lemma backAux (eps : ℚ) (pcs : List ℕ) (rank rows : ℕ) (hle : rank ≤ rows)
    (hinj : ∀ i j, i < j → j < rank → pcs.getD i 0 < pcs.getD j 0) :
    ∀ k, k ≤ rank → ∀ m : Mat,
      (∀ i, i < rank → m i (pcs.getD i 0) = 1) →
      (∀ i, i < rank → ∀ row, i < row → row < rows → m row (pcs.getD i 0) = 0) →
      (∀ i, k ≤ i → i < rank → ∀ row, row < i → m row (pcs.getD i 0) = 0) →
      (∀ i, i < rank →
        ((List.range k).reverse.foldl
          (fun acc i2 => backStep eps ((List.range rank).getD i2 0) (pcs.getD i2 0) acc) m)
          i (pcs.getD i 0) = 1) ∧
      (∀ i, i < rank → ∀ row, i < row → row < rows →
        ((List.range k).reverse.foldl
          (fun acc i2 => backStep eps ((List.range rank).getD i2 0) (pcs.getD i2 0) acc) m)
          row (pcs.getD i 0) = 0) ∧
      (∀ i, i < rank → ∀ row, row < i →
        ((List.range k).reverse.foldl
          (fun acc i2 => backStep eps ((List.range rank).getD i2 0) (pcs.getD i2 0) acc) m)
          row (pcs.getD i 0) = 0) := by
  intro k
  induction k with
  | zero =>
    intro _ m hone hbelow habove
    refine ⟨fun i hi => hone i hi, fun i hi row h1 h2 => hbelow i hi row h1 h2,
      fun i hi row hrow => habove i (Nat.zero_le i) hi row hrow⟩
  | succ k ih =>
    intro hk m hone hbelow habove
    have hkr : k < rank := by omega
    rw [range_reverse_cons, List.foldl_cons, getD_range hkr]
    set m2 := backStep eps k (pcs.getD k 0) m with hm2
    have hspec : ∀ u j, m2 u j =
        if u < k then backElimRow eps k (pcs.getD k 0) m u u j else m u j :=
      fun u j => backStep_spec eps k (pcs.getD k 0) m u j
    -- the pivot column entries of the other pivots are untouched in the rows
    -- that the step modifies, because row k carries zeros there
    have hval : ∀ u, u < k → ∀ j, j ≠ pcs.getD k 0 →
        (m u j = 0 → m k j = 0 → m2 u j = 0) ∧ (m u j = 1 → m k j = 0 → m2 u j = 1) := by
      intro u hu j hj
      rw [hspec u j, if_pos hu, backElimRow_target, if_neg hj]
      constructor
      · intro hmu hmk
        rw [hmu, hmk]
        split
        · rfl
        · split
          · rfl
          · ring
      · intro hmu hmk
        rw [hmu, hmk]
        split
        · rfl
        · split
          · rfl
          · ring
    have hone2 : ∀ i, i < rank → m2 i (pcs.getD i 0) = 1 := by
      intro i hi
      by_cases hik : i < k
      · have hne : pcs.getD i 0 ≠ pcs.getD k 0 := Nat.ne_of_lt (hinj i k hik hkr)
        exact (hval i hik _ hne).2 (hone i hi) (hbelow i hi k hik (by omega))
      · rw [hspec _ _, if_neg hik]
        exact hone i hi
    have hbelow2 : ∀ i, i < rank → ∀ row, i < row → row < rows →
        m2 row (pcs.getD i 0) = 0 := by
      intro i hi row h1 h2
      by_cases hrk : row < k
      · have hne : pcs.getD i 0 ≠ pcs.getD k 0 := Nat.ne_of_lt (hinj i k (by omega) hkr)
        exact (hval row hrk _ hne).1 (hbelow i hi row h1 h2)
          (hbelow i hi k (by omega) (by omega))
      · rw [hspec _ _, if_neg hrk]
        exact hbelow i hi row h1 h2
    have habove2 : ∀ i, k ≤ i → i < rank → ∀ row, row < i → m2 row (pcs.getD i 0) = 0 := by
      intro i hki hi row hrow
      by_cases hrk : row < k
      · by_cases hik : i = k
        · subst hik
          rw [hspec _ _, if_pos hrk, backElimRow_target, if_pos rfl]
        · have hik2 : k < i := by omega
          have hne : pcs.getD i 0 ≠ pcs.getD k 0 := (Nat.ne_of_lt (hinj k i hik2 hi)).symm
          exact (hval row hrk _ hne).1 (habove i (by omega) hi row hrow)
            (habove i (by omega) hi k hik2)
      · rw [hspec _ _, if_neg hrk]
        exact habove i (by omega) hi row hrow
    exact ih (by omega) m2 hone2 hbelow2
      (fun i hki hi row hrow => habove2 i (by omega) hi row hrow)

lemma cleanup_snap (eps : ℚ) (m : Mat) (i j : ℕ) (h : |cleanup eps m i j| < eps) :
    cleanup eps m i j = 0 := by
  unfold cleanup at h ⊢
  split at h
  · next hc => rw [if_pos hc]
  · next hc => exact absurd h hc

/-! ## Structural facts about a successful `toRREF` -/

/-- The structural invariant of a successfully reduced matrix. -/
structure RrefFacts (rows cols : ℕ) (eps : ℚ) (R : RrefResult) : Prop where
  prs_eq : R.pivotRows = List.range R.rank
  pcs_len : R.pivotCols.length = R.rank
  rank_le : R.rank ≤ rows
  pcs_lt : ∀ i, i < R.rank → R.pivotCols.getD i 0 < cols
  pcs_mono : ∀ i j, i < j → j < R.rank → R.pivotCols.getD i 0 < R.pivotCols.getD j 0
  pivot_one : ∀ i, i < R.rank → R.mat i (R.pivotCols.getD i 0) = 1
  col_zero : ∀ i, i < R.rank → ∀ row, row < rows → row ≠ i →
    R.mat row (R.pivotCols.getD i 0) = 0
  snapped : ∀ i j, |R.mat i j| < eps → R.mat i j = 0

lemma toRREF_ok_facts {rows cols : ℕ} {eps : ℚ} {m : Mat} {R : RrefResult}
    (heps : 0 < eps) (heps1 : eps ≤ 1) (h : toRREF rows cols eps m = .ok R) :
    RrefFacts rows cols eps R ∧ R.rank = (toREF rows cols eps m).rank ∧
      R.pivotCols = (toREF rows cols eps m).pivotCols ∧
      R.pivotRows = (toREF rows cols eps m).pivotRows := by
  obtain ⟨h1, h2, h3, h4, h5, h6, h7, h8⟩ := toREF_inv rows cols eps m
  set st := toREF rows cols eps m with hst
  rw [show toRREF rows cols eps m =
    (scalePass st.pivotRows st.pivotCols st.rank st.mat).map (fun m1 =>
      ⟨cleanup eps (backPass eps st.pivotRows st.pivotCols st.rank m1),
       st.rank, st.pivotCols, st.pivotRows⟩) from rfl] at h
  cases hscale : scalePass st.pivotRows st.pivotCols st.rank st.mat with
  | error e =>
    rw [hscale] at h
    simp [Except.map] at h
  | ok m1 =>
    rw [hscale] at h
    simp only [Except.map, Except.ok.injEq] at h
    subst h
    rw [h2] at hscale
    have hm1 := scalePass_ok_char st.pivotCols st.rank st.mat m1 hscale
    have hpivot_ne : ∀ i, i < st.rank → st.mat i (st.pivotCols.getD i 0) ≠ 0 := by
      intro i hi hc
      have := h7 i hi
      rw [hc] at this
      simp only [abs_zero] at this
      exact absurd this (not_le.mpr heps)
    -- preconditions for the backward pass
    have hone : ∀ i, i < st.rank → m1 i (st.pivotCols.getD i 0) = 1 := by
      intro i hi
      rw [hm1 i _, if_pos hi]
      exact mul_one_div_cancel (hpivot_ne i hi)
    have hbelow : ∀ i, i < st.rank → ∀ row, i < row → row < rows →
        m1 row (st.pivotCols.getD i 0) = 0 := by
      intro i hi row hrow hrows
      rw [hm1 row _]
      split
      · rw [h8 i hi row hrow hrows]
        ring
      · exact h8 i hi row hrow hrows
    have hback := backAux eps st.pivotCols st.rank rows h4 h6 st.rank (le_refl _) m1
      hone hbelow (fun i hki hi row hrow => absurd hki (by omega))
    obtain ⟨hone2, hbelow2, habove2⟩ := hback
    have hBP : backPass eps st.pivotRows st.pivotCols st.rank m1 =
        (List.range st.rank).reverse.foldl
          (fun acc i2 => backStep eps ((List.range st.rank).getD i2 0)
            (st.pivotCols.getD i2 0) acc) m1 := by
      rw [backPass, h2]
    refine ⟨⟨?_, ?_, ?_, ?_, ?_, ?_, ?_, ?_⟩, rfl, rfl, rfl⟩ <;> dsimp only
    · rw [h2]
    · rw [h3]
    · exact h4
    · intro i hi
      exact h5 i hi
    · intro i j hij hj
      exact h6 i j hij hj
    · intro i hi
      rw [hBP, cleanup, hone2 i hi]
      rw [if_neg (by rw [abs_one]; exact not_lt.mpr heps1)]
    · intro i hi row hrows hne
      rw [hBP, cleanup]
      rcases Nat.lt_or_ge row i with hri | hri
      · rw [habove2 i hi row hri]
        simp
      · have hri2 : i < row := by omega
        rw [hbelow2 i hi row hri2 hrows]
        simp
    · intro i j habs
      exact cleanup_snap eps _ i j habs

/-! ## Pivot-column arithmetic -/

lemma mono_ge {pcs : List ℕ} {K : ℕ}
    (hmono : ∀ a b, a < b → b < K → pcs.getD a 0 < pcs.getD b 0) :
    ∀ i, i < K → i ≤ pcs.getD i 0 := by
  intro i
  induction i with
  | zero => intro _; exact Nat.zero_le _
  | succ i ih =>
    intro hi
    have h1 := ih (by omega)
    have h2 := hmono i (i + 1) (by omega) hi
    omega

lemma rank_le_cols {pcs : List ℕ} {K cols : ℕ}
    (hmono : ∀ a b, a < b → b < K → pcs.getD a 0 < pcs.getD b 0)
    (hlt : ∀ i, i < K → pcs.getD i 0 < cols) : K ≤ cols := by
  rcases Nat.eq_zero_or_pos K with h | h
  · omega
  · have h1 := mono_ge hmono (K - 1) (by omega)
    have h2 := hlt (K - 1) (by omega)
    omega

lemma pcs_le_self {pcs : List ℕ} {K : ℕ}
    (hmono : ∀ a b, a < b → b < K → pcs.getD a 0 < pcs.getD b 0)
    (hlt : ∀ i, i < K → pcs.getD i 0 < K) :
    ∀ d i, i < K → K - 1 - i = d → pcs.getD i 0 ≤ i := by
  intro d
  induction d with
  | zero =>
    intro i hi hd
    have : i = K - 1 := by omega
    subst this
    have := hlt (K - 1) hi
    omega
  | succ d ih =>
    intro i hi hd
    have h1 := ih (i + 1) (by omega) (by omega)
    have h2 := hmono i (i + 1) (by omega) (by omega)
    omega

lemma pcs_eq_self {pcs : List ℕ} {K : ℕ}
    (hmono : ∀ a b, a < b → b < K → pcs.getD a 0 < pcs.getD b 0)
    (hlt : ∀ i, i < K → pcs.getD i 0 < K) :
    ∀ i, i < K → pcs.getD i 0 = i := by
  intro i hi
  have h1 := mono_ge hmono i hi
  have h2 := pcs_le_self hmono hlt (K - 1 - i) i hi rfl
  omega

lemma augmentedPivotScan_iff (n : ℕ) (pcs : List ℕ) :
    augmentedPivotScan n pcs = true ↔ n ∈ pcs := by
  induction pcs with
  | nil => simp [augmentedPivotScan]
  | cons c rest ih =>
    unfold augmentedPivotScan
    by_cases hc : c = n
    · subst hc
      simp
    · rw [if_neg hc, ih]
      constructor
      · exact fun h => List.mem_cons_of_mem c h
      · intro h
        rcases List.mem_cons.mp h with h | h
        · exact absurd h.symm hc
        · exact h

lemma mem_freeColumns {cols : ℕ} {pcs : List ℕ} {j : ℕ} :
    j ∈ freeColumns cols pcs ↔ j < cols ∧ j ∉ pcs := by
  unfold freeColumns
  rw [List.mem_filter, List.mem_range]
  simp

lemma freeColumns_nil_iff {cols : ℕ} {pcs : List ℕ} :
    freeColumns cols pcs = [] ↔ ∀ j, j < cols → j ∈ pcs := by
  constructor
  · intro h j hj
    by_contra hc
    have : j ∈ freeColumns cols pcs := mem_freeColumns.mpr ⟨hj, hc⟩
    rw [h] at this
    simp at this
  · intro h
    rcases hc : freeColumns cols pcs with _ | ⟨a, rest⟩
    · rfl
    · have : a ∈ freeColumns cols pcs := by rw [hc]; exact List.mem_cons_self a rest
      have h2 := mem_freeColumns.mp this
      exact absurd (h a h2.1) h2.2

/-! ## Characterization of the index-assignment folds -/

lemma assignFold_aux (pcs : List ℕ) (val : ℕ → ℚ) (base : ℕ → ℚ) (K : ℕ)
    (hinj : ∀ a b, a < b → b < K → pcs.getD a 0 ≠ pcs.getD b 0) :
    ∀ k, k ≤ K →
      (∀ j, (∀ i, i < k → pcs.getD i 0 ≠ j) →
        ((List.range k).foldl (fun v i2 => fun j2 =>
          if j2 = pcs.getD i2 0 then val i2 else v j2) base) j = base j) ∧
      (∀ i, i < k →
        ((List.range k).foldl (fun v i2 => fun j2 =>
          if j2 = pcs.getD i2 0 then val i2 else v j2) base) (pcs.getD i 0) = val i) := by
  intro k
  induction k with
  | zero =>
    intro _
    exact ⟨fun j _ => rfl, fun i hi => absurd hi (by omega)⟩
  | succ k ih =>
    intro hk
    obtain ⟨ihn, iha⟩ := ih (by omega)
    rw [range_append_one, List.foldl_append, List.foldl_cons, List.foldl_nil]
    constructor
    · intro j hj
      rw [if_neg (fun hc => hj k (by omega) hc.symm)]
      exact ihn j (fun i hi => hj i (by omega))
    · intro i hi
      rcases Nat.lt_succ_iff_lt_or_eq.mp hi with hi2 | hi2
      · rw [if_neg (hinj i k hi2 (by omega)), iha i hi2]
      · subst hi2
        rw [if_pos rfl]

/-! ## Row-times-vector values of a reduced system -/

lemma rowDot_linear (m : Mat) (i : ℕ) (x y : ℕ → ℚ) (t : ℚ) (n : ℕ) :
    rowDotF m i (fun j => x j + t * y j) n = rowDotF m i x n + t * rowDotF m i y n := by
  unfold rowDotF
  rw [Finset.mul_sum, ← Finset.sum_add_distrib]
  exact Finset.sum_congr rfl (fun j _ => by ring)

lemma rowDot_particular {rows cols : ℕ} {eps : ℚ} {R : RrefResult}
    (hf : RrefFacts rows cols eps R) {n : ℕ}
    (hn : ∀ i, i < R.rank → R.pivotCols.getD i 0 < n)
    (x : ℕ → ℚ) (val : ℕ → ℚ)
    (hx_piv : ∀ i, i < R.rank → x (R.pivotCols.getD i 0) = val i)
    (hx_free : ∀ j, j < n → j ∉ R.pivotCols → x j = 0)
    (k : ℕ) (hk : k < R.rank) :
    rowDotF R.mat k x n = val k := by
  have hrle := hf.rank_le
  unfold rowDotF
  have hmem : R.pivotCols.getD k 0 ∈ Finset.range n := Finset.mem_range.mpr (hn k hk)
  rw [Finset.sum_eq_single_of_mem (R.pivotCols.getD k 0) hmem]
  · rw [hf.pivot_one k hk, hx_piv k hk, one_mul]
  · intro j hj hne
    by_cases hjp : j ∈ R.pivotCols
    · obtain ⟨i, hi, hieq⟩ := mem_iff_getD.mp hjp
      rw [hf.pcs_len] at hi
      subst hieq
      have hik : i ≠ k := fun hc => hne (by rw [hc])
      rw [hf.col_zero i hi k (by omega) hik.symm, zero_mul]
    · rw [hx_free j (Finset.mem_range.mp hj) hjp, mul_zero]

lemma rowDot_kernel {rows cols : ℕ} {eps : ℚ} {R : RrefResult}
    (hf : RrefFacts rows cols eps R) {n : ℕ}
    (hn : ∀ i, i < R.rank → R.pivotCols.getD i 0 < n)
    (f : ℕ) (hfn : f < n) (hfp : f ∉ R.pivotCols)
    (x : ℕ → ℚ) (val : ℕ → ℚ)
    (hval : ∀ i, i < R.rank → val i = -(R.mat i f))
    (hx_piv : ∀ i, i < R.rank → x (R.pivotCols.getD i 0) = val i)
    (hx_f : x f = 1)
    (hx_free : ∀ j, j < n → j ∉ R.pivotCols → j ≠ f → x j = 0)
    (k : ℕ) (hk : k < R.rank) :
    rowDotF R.mat k x n = 0 := by
  have hrle := hf.rank_le
  unfold rowDotF
  have hkmem : R.pivotCols.getD k 0 ∈ R.pivotCols :=
    mem_iff_getD.mpr ⟨k, by rw [hf.pcs_len]; exact hk, rfl⟩
  have hne : R.pivotCols.getD k 0 ≠ f := fun hc => hfp (hc ▸ hkmem)
  have hsub : ({R.pivotCols.getD k 0, f} : Finset ℕ) ⊆ Finset.range n := by
    intro j hj
    rcases Finset.mem_insert.mp hj with rfl | hj
    · exact Finset.mem_range.mpr (hn k hk)
    · rw [Finset.mem_singleton.mp hj]
      exact Finset.mem_range.mpr hfn
  rw [← Finset.sum_subset hsub]
  · rw [Finset.sum_insert (Finset.not_mem_singleton.mpr hne), Finset.sum_singleton, hf.pivot_one k hk,
      hx_piv k hk, hval k hk, hx_f, one_mul, mul_one]
    ring
  · intro j hj hjn
    have hj1 : j < n := Finset.mem_range.mp hj
    have hj2 : j ≠ R.pivotCols.getD k 0 := fun hc => hjn (by rw [hc]; simp)
    have hj3 : j ≠ f := fun hc => hjn (by rw [hc]; simp)
    by_cases hjp : j ∈ R.pivotCols
    · obtain ⟨i, hi, hieq⟩ := mem_iff_getD.mp hjp
      rw [hf.pcs_len] at hi
      subst hieq
      have hik : i ≠ k := fun hc => hj2 (by rw [hc])
      rw [hf.col_zero i hi k (by omega) hik.symm, zero_mul]
    · rw [hx_free j hj1 hjp hj3, mul_zero]

/-! ## Concrete instances used by the scenario and counterexample theorems -/

/-- The augmented system of spec scenario 3: `A = [[1,1],[2,2]]`. -/
def scenA : Mat := matOfLists [[1, 1], [2, 2]]

/-- The right-hand side of spec scenario 3: `b = [[1],[3]]`. -/
def scenB : Mat := matOfLists [[1], [3]]

/-- A system on which the sub-`1e-9` factor guard of `addScaledRow` skips
an elimination step: the computed solution solves a modified system, not
the original one. -/
def cexA : Mat := matOfLists [[1000000000, 1000000000], [1/2, 1]]

/-- Right-hand side paired with `cexA`. -/
def cexB : Mat := matOfLists [[3000000000], [1]]

/-- A 2×3 matrix whose kernel computation is polluted by the same skipped
elimination step. -/
def cexK : Mat := matOfLists [[1000000000, 1000000000, 3000000000], [1/2, 1, 1]]

/-- A matrix whose rank differs from the rank of its transpose under the
implemented reduction: the `1/2` below the huge pivot is zeroed without
elimination in this orientation, but eliminated for real in the transpose. -/
def cexR : Mat := matOfLists [[1000000000, 1000000], [1/2, 1/2000]]

/-- A 1×1 matrix with entry `2e9`: full rank, but normalizing the pivot
needs the scale factor `5e-10`, which `scaleRow` rejects. -/
def cexS : Mat := matOfLists [[2000000000]]

/-- A matrix with a sub-`eps` entry below the pivot: the implemented
elimination zeroes it without an add-scaled-row step. -/
def cexE : Mat := matOfLists [[1/1000000000, 1], [9/10000000000, 1]]

/-! ## C9 -/

/-- C9: after `toREF` (and hence `toRREF`, which copies the bookkeeping
unchanged), the recorded `pivotRows` sequence is exactly the consecutive
sequence `[0, 1, …, rank-1]`; in particular the `i`-th pivot sits in row
`i`, which is what makes the solver read the reduced matrix at row `i`. -/
theorem C9_pivotRows_consecutive (rows cols : ℕ) (eps : ℚ) (m : Mat) :
    (toREF rows cols eps m).pivotRows = List.range (toREF rows cols eps m).rank ∧
    (toREF rows cols eps m).pivotRow = (toREF rows cols eps m).rank ∧
    (∀ i, i < (toREF rows cols eps m).rank →
      (toREF rows cols eps m).pivotRows.getD i 0 = i) := by
  obtain inv := toREF_inv rows cols eps m
  exact ⟨inv.prs_eq, inv.pivotRow_eq, fun i hi => by rw [inv.prs_eq, getD_range hi]⟩

/-! ## C10 -/

/-- C10: `toRREF` is not total over valid-shaped matrices: on the 1×1
matrix `[[2e9]]` the reduction finds a pivot (rank 1, neither
shape-invalid nor rank-deficient), but the normalization factor `1/2e9`
has magnitude below `1e-9`, so `scaleRow` throws
"Scaling factor too small" and `toRREF` fails. -/
theorem C10_toRREF_throws_on_large_pivot :
    (toREF 1 1 eps0 cexS).rank = 1 ∧
    eps0 ≤ |cexS 0 0| ∧
    |1 / cexS 0 0| < eps0 ∧
    (toRREF 1 1 eps0 cexS).map (fun R => R.rank) = .error "Scaling factor too small" := by
  with_unfolding_all decide

/-! ## C8 -/

/-- C8: the claimed identity `rank(A) == rank(transpose(A))` fails on the
implemented reduction: for `A = [[1e9, 1e6], [1/2, 1/2000]]` the
`addScaledRow` guard silently skips the elimination of the `1/2` (factor
`5e-10 < 1e-9`) and the forced zeroing loses it, so `rank(A) = 2`, while
on the transpose the elimination factor is `1e-3` and cancels the second
column exactly, so `rank(transpose(A)) = 1`. -/
theorem C8_rank_transpose_mismatch :
    rankM 2 2 cexR = .ok 2 ∧
    rankM 2 2 (transposeM cexR) = .ok 1 ∧
    (Except.ok 2 : Except String ℕ) ≠ .ok 1 := by
  with_unfolding_all decide

/-! ## C3 -/

/-- C3 (counterexample): for `eps = 2 > 1` the final cleanup pass snaps
the normalized pivot entry `1` itself to `0`: on `[[2]]` the reduction
completes with rank 1 and pivot position `(0,0)`, but the resulting pivot
entry is `0`, not `1`. -/
theorem C3_counterexample_eps_gt_one :
    (toRREF 1 1 2 (matOfLists [[2]])).map (fun R => (R.rank, R.pivotRows, R.pivotCols)) =
      .ok (1, [0], [0]) ∧
    (toRREF 1 1 2 (matOfLists [[2]])).map (fun R => R.mat 0 0) = .ok 0 ∧
    (0 : ℚ) ≠ 1 ∧ (0 : ℚ) < 2 := by
  with_unfolding_all decide

/-- C3 (amended): for every matrix and every `eps` with `0 < eps ≤ 1`,
after `toRREF` completes, every pivot entry at `(pivotRows[i],
pivotCols[i])` equals exactly 1, every other entry of a pivot column in a
valid row equals exactly 0, and every entry of magnitude below `eps` has
been snapped to exact 0 (for `eps > 1` the cleanup pass destroys the
pivot entries, see the counterexample). -/
theorem C3_rref_invariants (rows cols : ℕ) (eps : ℚ) (m : Mat) (R : RrefResult)
    (heps : 0 < eps) (heps1 : eps ≤ 1) (h : toRREF rows cols eps m = .ok R) :
    (∀ i, i < R.rank → R.mat (R.pivotRows.getD i 0) (R.pivotCols.getD i 0) = 1) ∧
    (∀ i, i < R.rank → ∀ row, row < rows → row ≠ R.pivotRows.getD i 0 →
      R.mat row (R.pivotCols.getD i 0) = 0) ∧
    (∀ i j, |R.mat i j| < eps → R.mat i j = 0) := by
  obtain ⟨hf, _, _, _⟩ := toRREF_ok_facts heps heps1 h
  refine ⟨?_, ?_, hf.snapped⟩
  · intro i hi
    rw [hf.prs_eq, getD_range hi]
    exact hf.pivot_one i hi
  · intro i hi row hrows hne
    rw [hf.prs_eq, getD_range hi] at hne
    exact hf.col_zero i hi row hrows hne

/-- The reduction result of `toRREF` on `[[2]]` at the default epsilon,
used to instantiate the amended C3 theorem. -/
def rrefOfTwo : RrefResult :=
  match toRREF 1 1 eps0 (matOfLists [[2]]) with
  | .ok R => R
  | .error _ => ⟨fun _ _ => 0, 0, [], []⟩

theorem C3_rref_invariants_witness :
    (0 : ℚ) < eps0 ∧ eps0 ≤ 1 ∧
    rrefOfTwo.mat (rrefOfTwo.pivotRows.getD 0 0) (rrefOfTwo.pivotCols.getD 0 0) = 1 :=
  ⟨by with_unfolding_all decide, by with_unfolding_all decide,
    (C3_rref_invariants 1 1 eps0 (matOfLists [[2]]) rrefOfTwo
      (by with_unfolding_all decide) (by with_unfolding_all decide)
      (by with_unfolding_all rfl)).1 0 (by with_unfolding_all decide)⟩

/-! ## C1 -/

lemma solveSystem_ok {rowsA colsA bRows bCols : ℕ} {A b : Mat} {R : RrefResult}
    {t : SolutionType}
    (h : solveSystem rowsA colsA A bRows bCols b = .ok (R, t)) :
    toRREF rowsA (colsA + 1) eps0 (augmentM A colsA b) = .ok R ∧
    t = solveClassify colsA R.pivotCols := by
  unfold solveSystem at h
  split at h
  · cases h
  · split at h
    · cases h
    · cases hred : toRREF rowsA (colsA + 1) eps0 (augmentM A colsA b) with
      | error e =>
        rw [hred] at h
        simp [Except.map] at h
      | ok R2 =>
        rw [hred] at h
        simp only [Except.map, Except.ok.injEq, Prod.mk.injEq] at h
        obtain ⟨hR, ht⟩ := h
        subst hR
        refine ⟨rfl, ?_⟩
        rw [← ht]
        norm_num

lemma solveClassify_eq_rule (n : ℕ) (pcs : List ℕ) :
    solveClassify n pcs =
      if n ∈ pcs then SolutionType.NoSolution
      else if pcs.length = n then SolutionType.UniqueSolution
      else SolutionType.InfiniteSolutions := by
  unfold solveClassify
  by_cases hmem : n ∈ pcs
  · rw [if_pos ((augmentedPivotScan_iff n pcs).mpr hmem), if_pos hmem]
  · rw [if_neg (fun hc => hmem ((augmentedPivotScan_iff n pcs).mp hc)), if_neg hmem]

/-- C1: for every system `A·x = b` accepted by the solver, the computed
classification is exactly the stated rule applied to the RREF pivot
columns of the augmented matrix `[A | b]` with `n = cols(A)`: NoSolution
when the augmented column `n` holds a pivot, otherwise UniqueSolution when
the pivot count equals `n`, otherwise InfiniteSolutions; and the concrete
scenario `A = [[1,1],[2,2]]`, `b = [[1],[3]]` classifies as NoSolution. -/
theorem C1_classification :
    (∀ (rowsA colsA bRows bCols : ℕ) (A b : Mat) (R : RrefResult) (t : SolutionType),
      solveSystem rowsA colsA A bRows bCols b = .ok (R, t) →
      t = if colsA ∈ R.pivotCols then SolutionType.NoSolution
          else if R.pivotCols.length = colsA then SolutionType.UniqueSolution
          else SolutionType.InfiniteSolutions) ∧
    (solveSystem 2 2 scenA 2 1 scenB).map Prod.snd = .ok SolutionType.NoSolution := by
  constructor
  · intro rowsA colsA bRows bCols A b R t h
    obtain ⟨_, ht⟩ := solveSystem_ok h
    rw [ht, solveClassify_eq_rule]
  · with_unfolding_all decide

/-- The solver state of spec scenario 3, used to instantiate C1. -/
def scenRes : RrefResult × SolutionType :=
  match solveSystem 2 2 scenA 2 1 scenB with
  | .ok p => p
  | .error _ => (⟨fun _ _ => 0, 0, [], []⟩, .NoSolution)

theorem C1_classification_witness :
    scenRes.2 = if 2 ∈ scenRes.1.pivotCols then SolutionType.NoSolution
      else if scenRes.1.pivotCols.length = 2 then SolutionType.UniqueSolution
      else SolutionType.InfiniteSolutions :=
  C1_classification.1 2 2 2 1 scenA scenB scenRes.1 scenRes.2 (by with_unfolding_all rfl)

/-! ## C5 -/

/-- The elimination step exactly as the claim words it ("every entry
strictly below the pivot is eliminated by an add-scaled-row step and then
forced to exact zero"): a second definition following the claim's text,
with no sub-`eps` shortcut, kept for comparison against the implemented
`elimRowBelow` (which skips the add-scaled-row for entries below `eps`,
RREF.h lines 53-56). -/
def elimRowBelowClaimed (pivotRow col : ℕ) (m : Mat) (row : ℕ) : Mat :=
  setEntry (addScaledRow m row pivotRow (-(m row col) / m pivotRow col)) row col 0

/-- The claimed elimination loop over all rows strictly below the pivot. -/
def eliminateBelowClaimed (rows : ℕ) (m : Mat) (pivotRow col : ℕ) : Mat :=
  (List.range' (pivotRow + 1) (rows - (pivotRow + 1))).foldl
    (elimRowBelowClaimed pivotRow col) m

/-- The column step of the claimed algorithm: identical to `refStep`
except for the elimination loop. -/
def refStepClaimed (rows : ℕ) (eps : ℚ) (s : RefState) (col : ℕ) : RefState :=
  if s.pivotRow < rows then
    let p := pivotSearch s.mat col s.pivotRow rows
    if p.2 < eps then s
    else
      let m1 := if p.1 ≠ s.pivotRow then exchangeRows s.mat p.1 s.pivotRow else s.mat
      { mat := eliminateBelowClaimed rows m1 s.pivotRow col
        pivotRow := s.pivotRow + 1
        rank := s.rank + 1
        pivotCols := s.pivotCols ++ [col]
        pivotRows := s.pivotRows ++ [s.pivotRow] }
  else s

/-- `toREF` as the claim describes it. -/
def toREFclaimed (rows cols : ℕ) (eps : ℚ) (m : Mat) : RefState :=
  (List.range cols).foldl (refStepClaimed rows eps) ⟨m, 0, 0, [], []⟩

/-- C5 (counterexample): the claim says every entry strictly below the
pivot is eliminated by an add-scaled-row step and then forced to zero, but
the implementation short-circuits entries of magnitude below `eps`: it
sets them to zero without touching the rest of their row (RREF.h lines
53-56).  On `[[1e-9, 1], [9e-10, 1]]` with `eps = 1e-9` the implemented
`toREF` leaves entry `(1,1)` at `1`, while the claimed algorithm (factor
`-0.9`) turns it into `1/10`. -/
theorem C5_counterexample_subeps_shortcut :
    (toREF 2 2 eps0 cexE).mat 1 1 = 1 ∧
    (toREFclaimed 2 2 eps0 cexE).mat 1 1 = 1 / 10 ∧
    (1 : ℚ) ≠ 1 / 10 := by
  with_unfolding_all decide

/-- C5 (amended): `toREF` processes columns left to right; in each column
the pivot search selects, among the rows at or below the current pivot
row, a row of maximal absolute value; when that maximum is below `eps` the
step changes nothing (no pivot, no advance); otherwise the selected row is
exchanged into pivot position, `(pivotRow, col)` is recorded, the rank is
incremented, the pivot row advances, rows above the pivot are untouched,
and every row strictly below ends with an exact 0 in the pivot column —
where an entry of magnitude at least `eps` is eliminated via the
`addScaledRow` factor `-entry/pivot` before the forced zero, while an
entry below `eps` is simply set to zero with the rest of its row
untouched; when the pivot row pointer reaches the row count the remaining
steps change nothing. -/
theorem C5_toREF_step_behaviour (rows : ℕ) (eps : ℚ) (s : RefState) (col : ℕ) :
    (rows ≤ s.pivotRow → refStep rows eps s col = s) ∧
    (s.pivotRow < rows →
      (s.pivotRow ≤ (pivotSearch s.mat col s.pivotRow rows).1 ∧
       (pivotSearch s.mat col s.pivotRow rows).1 < rows ∧
       (pivotSearch s.mat col s.pivotRow rows).2 =
         |s.mat (pivotSearch s.mat col s.pivotRow rows).1 col| ∧
       (∀ r, s.pivotRow ≤ r → r < rows →
         |s.mat r col| ≤ (pivotSearch s.mat col s.pivotRow rows).2)) ∧
      ((pivotSearch s.mat col s.pivotRow rows).2 < eps → refStep rows eps s col = s) ∧
      (¬(pivotSearch s.mat col s.pivotRow rows).2 < eps →
        (refStep rows eps s col).rank = s.rank + 1 ∧
        (refStep rows eps s col).pivotRow = s.pivotRow + 1 ∧
        (refStep rows eps s col).pivotCols = s.pivotCols ++ [col] ∧
        (refStep rows eps s col).pivotRows = s.pivotRows ++ [s.pivotRow] ∧
        (∀ j, (refStep rows eps s col).mat s.pivotRow j =
          s.mat (pivotSearch s.mat col s.pivotRow rows).1 j) ∧
        (∀ row, s.pivotRow < row → row < rows →
          (refStep rows eps s col).mat row col = 0 ∧
          (∀ j, j ≠ col →
            (refStep rows eps s col).mat row j =
              (if |exchangeRows s.mat (pivotSearch s.mat col s.pivotRow rows).1
                    s.pivotRow row col| < eps then
                exchangeRows s.mat (pivotSearch s.mat col s.pivotRow rows).1
                  s.pivotRow row j
              else
                addScaledRow
                  (exchangeRows s.mat (pivotSearch s.mat col s.pivotRow rows).1
                    s.pivotRow) row s.pivotRow
                  (-(exchangeRows s.mat (pivotSearch s.mat col s.pivotRow rows).1
                      s.pivotRow row col) /
                    exchangeRows s.mat (pivotSearch s.mat col s.pivotRow rows).1
                      s.pivotRow s.pivotRow col) row j))) ∧
        (∀ i, i < s.pivotRow → ∀ j, (refStep rows eps s col).mat i j = s.mat i j))) := by
  constructor
  · intro hg
    rw [refStep_eq, if_neg (by omega)]
  · intro hg
    obtain ⟨hp1, hp2, hp3, hp4⟩ := pivotSearch_spec s.mat col s.pivotRow rows hg
    refine ⟨⟨hp1, hp2, hp3, hp4⟩, ?_, ?_⟩
    · intro hsk
      rw [refStep_eq, if_pos hg, if_pos hsk]
    · intro hsk
      rw [refStep_eq, if_pos hg, if_neg hsk]
      set P := pivotSearch s.mat col s.pivotRow rows with hP
      set m1 := exchangeRows s.mat P.1 s.pivotRow with hm1
      have hmat : ∀ i j, eliminateBelow rows eps m1 s.pivotRow col i j =
          if s.pivotRow < i ∧ i < rows then elimRowBelow eps s.pivotRow col m1 i i j
          else m1 i j := fun i j => eliminateBelow_spec rows eps m1 s.pivotRow col hg i j
      refine ⟨rfl, rfl, rfl, rfl, ?_, ?_, ?_⟩
      · intro j
        show eliminateBelow rows eps m1 s.pivotRow col s.pivotRow j = _
        rw [hmat _ _, if_neg (by omega), hm1, exchangeRows_snd]
      · intro row hrow hrows
        constructor
        · show eliminateBelow rows eps m1 s.pivotRow col row col = 0
          rw [hmat _ _, if_pos ⟨hrow, hrows⟩, elimRowBelow_target, if_pos rfl]
        · intro j hj
          show eliminateBelow rows eps m1 s.pivotRow col row j = _
          rw [hmat _ _, if_pos ⟨hrow, hrows⟩, elimRowBelow_target, if_neg hj]
          by_cases hlow : |m1 row col| < eps
          · rw [if_pos hlow, if_pos hlow]
          · rw [if_neg hlow, if_neg hlow, addScaledRow_target]
      · intro i hi j
        show eliminateBelow rows eps m1 s.pivotRow col i j = _
        rw [hmat _ _, if_neg (by omega), hm1, exchangeRows_other (by omega) (by omega)]

theorem C5_toREF_step_behaviour_witness :
    refStep 1 eps0 ⟨matOfLists [[1]], 1, 1, [0], [0]⟩ 0 = ⟨matOfLists [[1]], 1, 1, [0], [0]⟩ ∧
    (refStep 1 eps0 ⟨matOfLists [[1]], 0, 0, [], []⟩ 0).rank = 0 + 1 :=
  ⟨(C5_toREF_step_behaviour 1 eps0 ⟨matOfLists [[1]], 1, 1, [0], [0]⟩ 0).1 (by decide),
   (((C5_toREF_step_behaviour 1 eps0 ⟨matOfLists [[1]], 0, 0, [], []⟩ 0).2
      (by decide)).2.2 (by with_unfolding_all decide)).1⟩

/-! ## C2 -/

lemma classify_not_no {n : ℕ} {pcs : List ℕ} (h : solveClassify n pcs ≠ .NoSolution) :
    n ∉ pcs := by
  intro hmem
  unfold solveClassify at h
  rw [if_pos ((augmentedPivotScan_iff n pcs).mpr hmem)] at h
  exact h rfl

lemma classify_unique {n : ℕ} {pcs : List ℕ} (h : solveClassify n pcs = .UniqueSolution) :
    pcs.length = n := by
  unfold solveClassify at h
  split at h
  · cases h
  · split at h
    · assumption
    · cases h

lemma classify_infinite {n : ℕ} {pcs : List ℕ}
    (h : solveClassify n pcs = .InfiniteSolutions) : pcs.length ≠ n := by
  unfold solveClassify at h
  split at h
  · cases h
  · split at h
    · cases h
    · assumption

lemma length_ge_of_all_mem {pcs : List ℕ} {n : ℕ} (h : ∀ j, j < n → j ∈ pcs) :
    n ≤ pcs.length := by
  have hsub : Finset.range n ⊆ pcs.toFinset :=
    fun j hj => List.mem_toFinset.mpr (h j (Finset.mem_range.mp hj))
  have h1 := Finset.card_le_card hsub
  rw [Finset.card_range] at h1
  exact le_trans h1 pcs.toFinset_card_le

/-- C2 (amended): for every system classified `UniqueSolution` or
`InfiniteSolutions`, after `computeSolution` the particular solution
satisfies the pivot rows of the reduced augmented system exactly
(`R · particular` agrees with the reduced right-hand side on every pivot
row), every nullspace basis vector `v` satisfies `R · v = 0` on every
pivot row (hence `particular + t·v` satisfies those rows for every scalar
`t`), and the nullspace basis is empty iff the classification is not
`InfiniteSolutions`.  (The original claim `A · particular == b` within
tolerance fails on the unreduced system, see the counterexample.) -/
theorem C2_solution_validity :
    ∀ (rowsA colsA bRows bCols : ℕ) (A b : Mat) (R : RrefResult) (t : SolutionType)
      (part : List ℚ) (ns : List (List ℚ)),
      solveSystem rowsA colsA A bRows bCols b = .ok (R, t) →
      t ≠ SolutionType.NoSolution →
      computeSolution colsA R t = .ok (part, ns) →
      (∀ i, i < R.rank → rowDotL R.mat i part colsA = R.mat i colsA) ∧
      (∀ v, v ∈ ns → ∀ i, i < R.rank → rowDotL R.mat i v colsA = 0) ∧
      (∀ v, v ∈ ns → ∀ tt : ℚ, ∀ i, i < R.rank →
        rowDotF R.mat i (fun j => part.getD j 0 + tt * v.getD j 0) colsA =
          R.mat i colsA) ∧
      (ns = [] ↔ t ≠ SolutionType.InfiniteSolutions) := by
  intro rowsA colsA bRows bCols A b R t part ns h hno hcs
  obtain ⟨hred, ht⟩ := solveSystem_ok h
  obtain ⟨hf, -, -, -⟩ := toRREF_ok_facts (by norm_num [eps0]) (by norm_num [eps0]) hred
  have hnotmem : colsA ∉ R.pivotCols := classify_not_no (fun hc => hno (ht.trans hc))
  have hlt : ∀ i, i < R.rank → R.pivotCols.getD i 0 < colsA := by
    intro i hi
    have h1 := hf.pcs_lt i hi
    have h2 : R.pivotCols.getD i 0 ∈ R.pivotCols :=
      mem_iff_getD.mpr ⟨i, by rw [hf.pcs_len]; exact hi, rfl⟩
    have h3 : R.pivotCols.getD i 0 ≠ colsA := fun hc => hnotmem (hc ▸ h2)
    omega
  have hinj : ∀ a b2, a < b2 → b2 < R.pivotCols.length →
      R.pivotCols.getD a 0 ≠ R.pivotCols.getD b2 0 := by
    intro a b2 hab hb
    rw [hf.pcs_len] at hb
    exact Nat.ne_of_lt (hf.pcs_mono a b2 hab hb)
  cases t with
  | NoSolution => exact absurd rfl hno
  | UniqueSolution =>
    have hlen : R.pivotCols.length = colsA := classify_unique ht.symm
    have hrk : R.rank = colsA := by rw [← hf.pcs_len, hlen]
    have hii : ∀ i, i < R.rank → R.pivotCols.getD i 0 = i := by
      intro i hi
      refine pcs_eq_self (fun a b2 hab hb => hf.pcs_mono a b2 hab hb) ?_ i hi
      intro i2 hi2
      rw [hrk]
      exact hlt i2 hi2
    have hcu : computeSolution colsA R SolutionType.UniqueSolution =
        .ok ((List.range colsA).map (fun i => R.mat i colsA), []) := rfl
    rw [hcu] at hcs
    simp only [Except.ok.injEq, Prod.mk.injEq] at hcs
    obtain ⟨hpart, hns⟩ := hcs
    subst hpart
    subst hns
    have hmain : ∀ i, i < R.rank →
        rowDotL R.mat i ((List.range colsA).map (fun i2 => R.mat i2 colsA)) colsA =
          R.mat i colsA := by
      intro i hi
      refine rowDot_particular hf hlt _ (fun i2 => R.mat i2 colsA) ?_ ?_ i hi
      · intro i2 hi2
        rw [hii i2 hi2, getD_map_range, if_pos (by omega)]
      · intro j hj hjp
        exact absurd (mem_iff_getD.mpr ⟨j, by rw [hf.pcs_len, hrk]; exact hj,
          hii j (by omega)⟩) hjp
    refine ⟨hmain, by simp, by simp, by simp⟩
  | InfiniteSolutions =>
    have hlen_ne : R.pivotCols.length ≠ colsA := classify_infinite ht.symm
    have hci : computeSolution colsA R SolutionType.InfiniteSolutions =
        .ok (vecOf colsA ((List.range R.pivotCols.length).foldl
            (fun v i => fun j => if j = R.pivotCols.getD i 0 then R.mat i colsA else v j)
            (fun _ => 0)),
          (freeColumns colsA R.pivotCols).map fun freeCol =>
            vecOf colsA ((List.range R.pivotCols.length).foldl
              (fun v i => fun j => if j = R.pivotCols.getD i 0 then -(R.mat i freeCol)
                                   else v j)
              (fun j => if j = freeCol then 1 else 0))) := rfl
    rw [hci] at hcs
    simp only [Except.ok.injEq, Prod.mk.injEq] at hcs
    obtain ⟨hpart, hns⟩ := hcs
    subst hpart
    subst hns
    obtain ⟨hfoldn, hfolda⟩ := assignFold_aux R.pivotCols (fun i => R.mat i colsA)
      (fun _ => 0) R.pivotCols.length hinj R.pivotCols.length (le_refl _)
    have hmain : ∀ i, i < R.rank →
        rowDotL R.mat i (vecOf colsA ((List.range R.pivotCols.length).foldl
          (fun v i2 => fun j => if j = R.pivotCols.getD i2 0 then R.mat i2 colsA else v j)
          (fun _ => 0))) colsA = R.mat i colsA := by
      intro i hi
      refine rowDot_particular hf hlt _ (fun i2 => R.mat i2 colsA) ?_ ?_ i hi
      · intro i2 hi2
        rw [getD_vecOf, if_pos (hlt i2 hi2)]
        exact hfolda i2 (by rw [hf.pcs_len]; exact hi2)
      · intro j hj hjp
        rw [getD_vecOf, if_pos hj]
        refine hfoldn j ?_
        intro i2 hi2 hc
        exact hjp (hc ▸ mem_iff_getD.mpr ⟨i2, hi2, rfl⟩)
    have hker : ∀ v, v ∈ (freeColumns colsA R.pivotCols).map (fun freeCol =>
          vecOf colsA ((List.range R.pivotCols.length).foldl
            (fun v2 i => fun j => if j = R.pivotCols.getD i 0 then -(R.mat i freeCol)
                                  else v2 j)
            (fun j => if j = freeCol then 1 else 0))) →
        ∀ i, i < R.rank → rowDotL R.mat i v colsA = 0 := by
      intro v hv i hi
      obtain ⟨f, hfmem, rfl⟩ := List.mem_map.mp hv
      obtain ⟨hfn, hfp⟩ := mem_freeColumns.mp hfmem
      obtain ⟨hkn, hka⟩ := assignFold_aux R.pivotCols (fun i2 => -(R.mat i2 f))
        (fun j => if j = f then 1 else 0) R.pivotCols.length hinj
        R.pivotCols.length (le_refl _)
      refine rowDot_kernel hf hlt f hfn hfp _ (fun i2 => -(R.mat i2 f))
        (fun i2 _ => rfl) ?_ ?_ ?_ i hi
      · intro i2 hi2
        rw [getD_vecOf, if_pos (hlt i2 hi2)]
        exact hka i2 (by rw [hf.pcs_len]; exact hi2)
      · rw [getD_vecOf, if_pos hfn]
        rw [hkn f (fun i2 hi2 hc => hfp (hc ▸ mem_iff_getD.mpr ⟨i2, hi2, rfl⟩))]
        rw [if_pos rfl]
      · intro j hj hjp hjf
        rw [getD_vecOf, if_pos hj]
        rw [hkn j (fun i2 hi2 hc => hjp (hc ▸ mem_iff_getD.mpr ⟨i2, hi2, rfl⟩))]
        rw [if_neg hjf]
    refine ⟨hmain, hker, ?_, ?_⟩
    · intro v hv tt i hi
      have h1 := hmain i hi
      have h2 := hker v hv i hi
      unfold rowDotL at h1 h2
      rw [rowDot_linear, h1, h2, mul_zero, add_zero]
    · constructor
      · intro hc
        rw [List.map_eq_nil_iff] at hc
        have hall := freeColumns_nil_iff.mp hc
        have h1 := length_ge_of_all_mem hall
        have h2 : R.pivotCols.length ≤ colsA := by
          rw [hf.pcs_len]
          refine rank_le_cols (fun a b2 hab hb => hf.pcs_mono a b2 hab hb) hlt
        omega
      · intro hc
        exact absurd rfl hc

/-- The unique-solution system of spec scenario 1: `A = [[2,1],[1,3]]`. -/
def uniqA : Mat := matOfLists [[2, 1], [1, 3]]

/-- The right-hand side of spec scenario 1: `b = [[3],[4]]`. -/
def uniqB : Mat := matOfLists [[3], [4]]

/-- The solver state of spec scenario 1, used to instantiate C2. -/
def uniqRes : RrefResult × SolutionType :=
  match solveSystem 2 2 uniqA 2 1 uniqB with
  | .ok p => p
  | .error _ => (⟨fun _ _ => 0, 0, [], []⟩, .NoSolution)

theorem C2_solution_validity_witness :
    rowDotL uniqRes.1.mat 0 [1, 1] 2 = uniqRes.1.mat 0 2 :=
  (C2_solution_validity 2 2 2 1 uniqA uniqB uniqRes.1 uniqRes.2 [1, 1] []
    (by with_unfolding_all rfl) (by with_unfolding_all decide)
    (by with_unfolding_all rfl)).1 0 (by with_unfolding_all decide)

/-- C2 (counterexample): on `A = [[1e9, 1e9], [1/2, 1]]`,
`b = [[3e9], [1]]` the solver classifies UniqueSolution and computes
`particular = (2, 1)`, but `A · particular = (3e9, 2)` misses `b` in the
second equation by exactly 1, far beyond any tolerance: the sub-`1e-9`
elimination factor `-(1/2)/1e9` made `addScaledRow` a no-op, and the
forced zeroing replaced the second equation by a different one. -/
theorem C2_counterexample_residual :
    solveAndCompute 2 2 cexA 2 1 cexB = .ok ([2, 1], []) ∧
    (solveSystem 2 2 cexA 2 1 cexB).map Prod.snd = .ok SolutionType.UniqueSolution ∧
    rowDotL cexA 1 [2, 1] 2 = 2 ∧ cexB 1 0 = 1 ∧
    ¬(|rowDotL cexA 1 [2, 1] 2 - cexB 1 0| ≤ eps0) := by
  with_unfolding_all decide

/-! ## C4 -/

lemma toREF_zero_matrix (rows cols : ℕ) (eps : ℚ) (heps : 0 < eps) (m : Mat)
    (hz : ∀ i j, i < rows → j < cols → m i j = 0) :
    toREF rows cols eps m = ⟨m, 0, 0, [], []⟩ := by
  induction cols with
  | zero => rfl
  | succ c ih =>
    rw [toREF_succ, ih (fun i j hi hj => hz i j hi (by omega))]
    rw [refStep_eq]
    dsimp only
    by_cases hg : 0 < rows
    · rw [if_pos hg]
      obtain ⟨hp1, hp2, hp3, hp4⟩ := pivotSearch_spec m c 0 rows hg
      rw [if_pos (by rw [hp3, hz _ c hp2 (by omega), abs_zero]; exact heps)]
    · rw [if_neg hg]

lemma toRREF_zero_matrix (rows cols : ℕ) (eps : ℚ) (heps : 0 < eps) (m : Mat)
    (hz : ∀ i j, i < rows → j < cols → m i j = 0) :
    toRREF rows cols eps m = .ok ⟨cleanup eps m, 0, [], []⟩ := by
  rw [show toRREF rows cols eps m =
    (scalePass (toREF rows cols eps m).pivotRows (toREF rows cols eps m).pivotCols
      (toREF rows cols eps m).rank (toREF rows cols eps m).mat).map (fun m1 =>
        ⟨cleanup eps (backPass eps (toREF rows cols eps m).pivotRows
          (toREF rows cols eps m).pivotCols (toREF rows cols eps m).rank m1),
         (toREF rows cols eps m).rank, (toREF rows cols eps m).pivotCols,
         (toREF rows cols eps m).pivotRows⟩) from rfl]
  rw [toREF_zero_matrix rows cols eps heps m hz]
  rfl

/-- C4 (amended): `getKernel` returns exactly one vector per free column,
in free-column order, each of length `cols`; each returned vector has
entry 1 at its free column and satisfies every pivot row of the reduced
matrix exactly (the claimed `A · v == 0` within epsilon fails on the
unreduced matrix, see the counterexample); the sequence is empty iff
`rank = cols`; and on an all-zero matrix the kernel is the full standard
basis of the column space. -/
theorem C4_kernel_structure (rows cols : ℕ) (m : Mat) (R : RrefResult)
    (h : toRREF rows cols eps0 m = .ok R) :
    getKernel rows cols eps0 m =
      .ok ((freeColumns cols R.pivotCols).map (kernelVec R cols)) ∧
    (∀ f, f ∈ freeColumns cols R.pivotCols →
      (kernelVec R cols f).length = cols ∧
      (kernelVec R cols f).getD f 0 = 1 ∧
      (∀ i, i < R.rank → rowDotL R.mat i (kernelVec R cols f) cols = 0)) ∧
    ((freeColumns cols R.pivotCols).map (kernelVec R cols) = [] ↔ R.rank = cols) ∧
    ((∀ i j, i < rows → j < cols → m i j = 0) →
      getKernel rows cols eps0 m =
        .ok ((List.range cols).map (fun f => vecOf cols (fun j => if j = f then 1 else 0)))) := by
  obtain ⟨hf, -, -, -⟩ := toRREF_ok_facts (by norm_num [eps0]) (by norm_num [eps0]) h
  have hinj : ∀ a b2, a < b2 → b2 < R.rank →
      R.pivotCols.getD a 0 ≠ R.pivotCols.getD b2 0 :=
    fun a b2 hab hb => Nat.ne_of_lt (hf.pcs_mono a b2 hab hb)
  have hker_eq : getKernel rows cols eps0 m =
      .ok ((freeColumns cols R.pivotCols).map (kernelVec R cols)) := by
    unfold getKernel
    rw [h]
    rfl
  refine ⟨hker_eq, ?_, ?_, ?_⟩
  · intro f hfmem
    obtain ⟨hfn, hfp⟩ := mem_freeColumns.mp hfmem
    obtain ⟨hkn, hka⟩ := assignFold_aux R.pivotCols
      (fun i => -(R.mat (R.pivotRows.getD i 0) f))
      (fun j => if j = f then 1 else 0) R.rank hinj R.rank (le_refl _)
    refine ⟨length_vecOf _ _, ?_, ?_⟩
    · unfold kernelVec
      rw [getD_vecOf, if_pos hfn]
      rw [hkn f (fun i2 hi2 hc =>
        hfp (hc ▸ mem_iff_getD.mpr ⟨i2, by rw [hf.pcs_len]; exact hi2, rfl⟩))]
      rw [if_pos rfl]
    · intro i hi
      unfold kernelVec rowDotL
      refine rowDot_kernel hf hf.pcs_lt f hfn hfp _
        (fun i2 => -(R.mat (R.pivotRows.getD i2 0) f)) ?_ ?_ ?_ ?_ i hi
      · intro i2 hi2
        simp only [hf.prs_eq, getD_range hi2]
      · intro i2 hi2
        rw [getD_vecOf, if_pos (lt_of_lt_of_le (hf.pcs_lt i2 hi2) (le_refl cols))]
        exact hka i2 hi2
      · rw [getD_vecOf, if_pos hfn]
        rw [hkn f (fun i2 hi2 hc =>
          hfp (hc ▸ mem_iff_getD.mpr ⟨i2, by rw [hf.pcs_len]; exact hi2, rfl⟩))]
        rw [if_pos rfl]
      · intro j hj hjp hjf
        rw [getD_vecOf, if_pos hj]
        rw [hkn j (fun i2 hi2 hc =>
          hjp (hc ▸ mem_iff_getD.mpr ⟨i2, by rw [hf.pcs_len]; exact hi2, rfl⟩))]
        rw [if_neg hjf]
  · rw [List.map_eq_nil_iff]
    constructor
    · intro hc
      have hall := freeColumns_nil_iff.mp hc
      have h1 := length_ge_of_all_mem hall
      have h2 : R.rank ≤ cols :=
        rank_le_cols (fun a b2 hab hb => hf.pcs_mono a b2 hab hb) hf.pcs_lt
      rw [hf.pcs_len] at h1
      omega
    · intro hc
      refine freeColumns_nil_iff.mpr ?_
      intro j hj
      have hii : ∀ i, i < R.rank → R.pivotCols.getD i 0 = i := by
        refine pcs_eq_self (fun a b2 hab hb => hf.pcs_mono a b2 hab hb) ?_
        intro i2 hi2
        rw [hc]
        exact hf.pcs_lt i2 hi2
      exact mem_iff_getD.mpr ⟨j, by rw [hf.pcs_len, hc]; exact hj, hii j (by omega)⟩
  · intro hz
    have hzz := toRREF_zero_matrix rows cols eps0 (by norm_num [eps0]) m hz
    rw [h] at hzz
    have hR : R = ⟨cleanup eps0 m, 0, [], []⟩ := (Except.ok.inj hzz)
    rw [hker_eq, hR]
    have hfree : freeColumns cols ([] : List ℕ) = List.range cols := by
      unfold freeColumns
      rw [List.filter_eq_self]
      intro a _
      simp
    show Except.ok ((freeColumns cols ([] : List ℕ)).map
      (kernelVec ⟨cleanup eps0 m, 0, [], []⟩ cols)) = _
    rw [hfree]
    rfl

/-- C4 (counterexample): on `A = [[1e9, 1e9, 3e9], [1/2, 1, 1]]` the
kernel basis is `{(-2, -1, 1)}`, but `A · v = (0, -1)`: the second entry
misses 0 by exactly 1, far beyond epsilon, because the skipped
sub-`1e-9` elimination replaced row 2 before the kernel was read off. -/
theorem C4_counterexample_not_in_nullspace :
    getKernel 2 3 eps0 cexK = .ok [[-2, -1, 1]] ∧
    rowDotL cexK 1 [-2, -1, 1] 3 = -1 ∧
    ¬(|rowDotL cexK 1 [-2, -1, 1] 3| ≤ eps0) := by
  with_unfolding_all decide

/-- The reduction result of the 1×2 zero matrix, used to instantiate C4. -/
def rrefZero12 : RrefResult :=
  match toRREF 1 2 eps0 (matOfLists [[0, 0]]) with
  | .ok R => R
  | .error _ => ⟨fun _ _ => 0, 0, [], []⟩

theorem C4_kernel_structure_witness :
    getKernel 1 2 eps0 (matOfLists [[0, 0]]) =
      .ok ((freeColumns 2 rrefZero12.pivotCols).map (kernelVec rrefZero12 2)) :=
  (C4_kernel_structure 1 2 (matOfLists [[0, 0]]) rrefZero12 (by with_unfolding_all rfl)).1

/-! ## C6 and C7 -/

lemma foldl_qr_iterate (n : ℕ) (qr : Mat → Mat × Mat) :
    ∀ (k : ℕ) (A : Mat),
      (List.range k).foldl (fun M _ => qrStep n qr M) A = (qrStep n qr)^[k] A := by
  intro k
  induction k with
  | zero => intro A; rfl
  | succ k ih =>
    intro A
    rw [range_append_one, List.foldl_append, List.foldl_cons, List.foldl_nil, ih,
      Function.iterate_succ_apply']

lemma eigen_ok_parts {rowsA colsA : ℕ} {qr : Mat → Mat × Mat}
    {normalize : List ℚ → Option (List ℚ)} {A : Mat} {k : ℕ} {res : EigenDecomposition}
    (h : eigen rowsA colsA qr normalize A k = .ok res) :
    rowsA = colsA ∧
    eigenVecLoop rowsA normalize A ((List.range rowsA).map
      (fun i => (List.range k).foldl (fun M _ => qrStep rowsA qr M) A i i)) =
      .ok res.eigenvectors ∧
    res.eigenvalues = (List.range rowsA).map
      (fun i => (List.range k).foldl (fun M _ => qrStep rowsA qr M) A i i) := by
  unfold eigen at h
  split at h
  · cases h
  · next hne =>
    simp only [] at h
    cases hloop : eigenVecLoop rowsA normalize A ((List.range rowsA).map
        (fun i => (List.range k).foldl (fun M _ => qrStep rowsA qr M) A i i)) with
    | error e =>
      rw [hloop] at h
      simp [Except.map] at h
    | ok vecs =>
      rw [hloop] at h
      simp only [Except.map, Except.ok.injEq] at h
      subst h
      exact ⟨not_ne_iff.mp hne, rfl, rfl⟩

/-- C6: whenever `eigen` returns, the input was square, and the returned
eigenvalues are exactly the `n` diagonal entries, in diagonal order with
no sorting or deduplication, of the matrix obtained by applying exactly
`max_iter` QR-iteration steps (factor, recombine as `R·Q`) to the input —
stated for an arbitrary factorization primitive `qr`, so no convergence
or residual test can cut the iteration short. -/
theorem C6_qr_iteration (rowsA colsA : ℕ) (qr : Mat → Mat × Mat)
    (normalize : List ℚ → Option (List ℚ)) (A : Mat) (max_iter : ℕ)
    (res : EigenDecomposition)
    (h : eigen rowsA colsA qr normalize A max_iter = .ok res) :
    rowsA = colsA ∧
    res.eigenvalues = (List.range rowsA).map
      (fun i => (qrStep rowsA qr)^[max_iter] A i i) ∧
    res.eigenvalues.length = rowsA := by
  obtain ⟨hsq, -, hvals⟩ := eigen_ok_parts h
  refine ⟨hsq, ?_, ?_⟩
  · rw [hvals, foldl_qr_iterate rowsA qr max_iter A]
  · rw [hvals]
    simp

lemma eigenLoop_aux (n : ℕ) (normalize : List ℚ → Option (List ℚ)) (A : Mat) :
    ∀ (lams : List ℚ) (acc out : List (List ℚ)),
      lams.foldlM (fun acc2 lam =>
        (getKernel n n eps0 (shiftedMat A lam)).map fun basis =>
          if basis.isEmpty then acc2 ++ [List.replicate n 0]
          else acc2 ++ basis.map (fun v => (normalize v).getD v)) acc = .ok out →
      out = acc ++ (lams.map (fun lam =>
        match getKernel n n eps0 (shiftedMat A lam) with
        | .ok basis => if basis.isEmpty then [List.replicate n 0]
                       else basis.map (fun v => (normalize v).getD v)
        | .error _ => [])).flatten ∧
      acc.length + lams.length ≤ out.length := by
  intro lams
  induction lams with
  | nil =>
    intro acc out h
    simp only [List.foldlM_nil, pure, Except.pure, Except.ok.injEq] at h
    subst h
    simp
  | cons lam rest ih =>
    intro acc out h
    rw [List.foldlM_cons] at h
    cases hk : getKernel n n eps0 (shiftedMat A lam) with
    | error e =>
      rw [hk] at h
      simp [Except.map, Bind.bind, Except.bind] at h
    | ok basis =>
      rw [hk] at h
      simp only [Except.map, Bind.bind, Except.bind] at h
      obtain ⟨he, hl⟩ := ih _ out h
      have hseg_eq : (match getKernel n n eps0 (shiftedMat A lam) with
          | Except.ok basis2 => if basis2.isEmpty = true then [List.replicate n 0]
            else List.map (fun v => (normalize v).getD v) basis2
          | Except.error _ => ([] : List (List ℚ))) =
          (if basis.isEmpty = true then [List.replicate n 0]
            else List.map (fun v => (normalize v).getD v) basis) := by
        rw [hk]
      constructor
      · rw [he, List.map_cons, List.flatten_cons, hseg_eq]
        by_cases hb : basis.isEmpty
        · rw [if_pos hb, if_pos hb, List.append_assoc]
        · rw [if_neg hb, if_neg hb, List.append_assoc]
      · simp only [List.length_cons]
        by_cases hb : basis.isEmpty
        · rw [if_pos hb, List.length_append] at hl
          simp only [List.length_singleton] at hl
          omega
        · rw [if_neg hb, List.length_append, List.length_map] at hl
          have hbl : 0 < basis.length :=
            List.length_pos.mpr (fun hc => by rw [hc] at hb; exact hb rfl)
          omega

/-- C7: `eigen` rejects every non-square input with the logic error
"Eigen decomposition only for square matrices"; for every square input on
which it returns, the eigenvector list is exactly the concatenation, over
the eigenvalues in order, of one segment per eigenvalue: the kernel of
`A - lam·I` computed on the original input `A`, each basis vector pushed
normalized with fallback to the raw vector when normalization fails, or a
single zero-vector placeholder when the kernel is empty — so the result
holds at least one eigenvector entry per eigenvalue. -/
theorem C7_eigen_error_handling :
    (∀ (rowsA colsA : ℕ) (qr : Mat → Mat × Mat)
       (normalize : List ℚ → Option (List ℚ)) (A : Mat) (k : ℕ), rowsA ≠ colsA →
      eigen rowsA colsA qr normalize A k =
        .error "Eigen decomposition only for square matrices") ∧
    (∀ (n : ℕ) (qr : Mat → Mat × Mat) (normalize : List ℚ → Option (List ℚ))
       (A : Mat) (k : ℕ) (res : EigenDecomposition),
      eigen n n qr normalize A k = .ok res →
      res.eigenvectors = (res.eigenvalues.map (fun lam =>
        match getKernel n n eps0 (shiftedMat A lam) with
        | .ok basis => if basis.isEmpty then [List.replicate n 0]
                       else basis.map (fun v => (normalize v).getD v)
        | .error _ => [])).flatten ∧
      res.eigenvalues.length ≤ res.eigenvectors.length) := by
  constructor
  · intro rowsA colsA qr normalize A k hne
    unfold eigen
    rw [if_pos hne]
  · intro n qr normalize A k res h
    obtain ⟨-, hloop, hvals⟩ := eigen_ok_parts h
    rw [show eigenVecLoop n normalize A ((List.range n).map
        (fun i => (List.range k).foldl (fun M _ => qrStep n qr M) A i i)) =
        ((List.range n).map
          (fun i => (List.range k).foldl (fun M _ => qrStep n qr M) A i i)).foldlM
          (fun acc2 lam =>
            (getKernel n n eps0 (shiftedMat A lam)).map fun basis =>
              if basis.isEmpty then acc2 ++ [List.replicate n 0]
              else acc2 ++ basis.map (fun v => (normalize v).getD v)) []
        from rfl] at hloop
    obtain ⟨he, hl⟩ := eigenLoop_aux n normalize A _ [] res.eigenvectors hloop
    rw [← hvals] at he hl
    constructor
    · rw [he]
      rfl
    · simpa using hl

/-- A trivial factorization primitive used to instantiate C6 and C7. -/
def qrId : Mat → Mat × Mat := fun M => (M, M)

/-- A normalization primitive that always fails, exercising the fallback
to the un-normalized vector. -/
def normNone : List ℚ → Option (List ℚ) := fun _ => none

/-- The eigen-decomposition of the 1×1 matrix `[[1]]` with a zero
iteration budget, used to instantiate C6 and C7. -/
def eigRes : EigenDecomposition :=
  match eigen 1 1 qrId normNone (matOfLists [[1]]) 0 with
  | .ok r => r
  | .error _ => ⟨[], []⟩

theorem C6_qr_iteration_witness :
    1 = 1 ∧
    eigRes.eigenvalues = (List.range 1).map
      (fun i => (qrStep 1 qrId)^[0] (matOfLists [[1]]) i i) ∧
    eigRes.eigenvalues.length = 1 :=
  C6_qr_iteration 1 1 qrId normNone (matOfLists [[1]]) 0 eigRes
    (by with_unfolding_all rfl)

theorem C7_eigen_error_handling_witness :
    eigen 1 2 qrId normNone (matOfLists [[1, 0]]) 3 =
      .error "Eigen decomposition only for square matrices" ∧
    eigRes.eigenvalues.length ≤ eigRes.eigenvectors.length :=
  ⟨C7_eigen_error_handling.1 1 2 qrId normNone (matOfLists [[1, 0]]) 3 (by decide),
   (C7_eigen_error_handling.2 1 qrId normNone (matOfLists [[1]]) 0 eigRes
     (by with_unfolding_all rfl)).2⟩

end MatrixCalculator
